import Mathlib

/-!
Verification of the sharded brute-force KNN merge core.

Shallow embedding of `cpp/src_prims/selection/knn.h` (namespace
`MLCommon::Selection`): the `merge_tables` k-way merge of per-shard
top-k candidate tables, and the host-side orchestration logic of
`brute_force_knn` (metric check, translation derivation, per-shard
dispatch with failure isolation, and the finishing transform).

Distances are modelled as rationals: `merge_tables` only ever copies and
compares distances (via `faiss::CMin<float,int>::cmp`, i.e. `<`), so the
order-theoretic behaviour of `float` (NaN-free) is captured faithfully by
any linear order.  Labels are modelled as integers (`int64_t`).

`merge_tables` is instantiated by `brute_force_knn` at comparator
`faiss::CMin<float, IntType>`.  The faiss comparator and heap procedures
(`faiss/Heap.h`, an external dependency of the repository) are embedded
below from their source: `CMin::cmp a b = a < b`, and
`CMin::neutral() = -std::numeric_limits<float>::max() = -(2^128 - 2^104)`,
and `heap_push` / `heap_pop` are the 1-based array sift-up / sift-down
loops reproduced operation by operation (including `heap_pop`'s use of the
slot `k` holding the moving element as an ordinary child during the
sift-down).
-/

namespace KnnMerge

/-- `faiss::CMin<float, ...>::neutral()`, i.e.
`-std::numeric_limits<float>::max()`: the exact integer value of
`-FLT_MAX = -(2^128 - 2^104)`.  This is the distance written into output
slots for which no candidate exists. -/
def CMin_neutral : ℚ := -340282346638528859811704183484516925440

/-- Read of the 1-based heap slot `i` (`bh_val[i]` / `bh_ids[i]` after the
`bh_val--` adjustment in `faiss/Heap.h`). -/
def getSlot (l : List (ℚ × ℕ)) (i : ℕ) : ℚ × ℕ := l.getD (i - 1) (0, 0)

/-- Write of the 1-based heap slot `i`. -/
def setSlot (l : List (ℚ × ℕ)) (i : ℕ) (x : ℚ × ℕ) : List (ℚ × ℕ) :=
  l.set (i - 1) x

/-- The sift-up loop of `faiss::heap_push` for comparator `CMin`
(`C::cmp a b = a < b`): starting from 1-based slot `i`, parents strictly
greater than the pushed value move down, and the pushed value lands in the
final slot.  `fuel` bounds the loop; every call below supplies fuel at
least `i`, which the loop can never exhaust (the index at least halves). -/
def heapSiftUp (v : ℚ) (vid : ℕ) : ℕ → List (ℚ × ℕ) → ℕ → List (ℚ × ℕ)
  | 0, l, i => setSlot l i (v, vid)
  | fuel + 1, l, i =>
    if 1 < i then
      if v < (getSlot l (i / 2)).1 then
        heapSiftUp v vid fuel (setSlot l i (getSlot l (i / 2))) (i / 2)
      else setSlot l i (v, vid)
    else setSlot l i (v, vid)

/-- `faiss::heap_push<CMin>(++heap_size, heap_vals, shard_ids, v, vid)`:
the heap grows by one slot and the new element sifts up from the last
1-based slot `heap_size`. -/
def heap_push (l : List (ℚ × ℕ)) (v : ℚ) (vid : ℕ) : List (ℚ × ℕ) :=
  heapSiftUp v vid (l.length + 1) (l ++ [(v, vid)]) (l.length + 1)

/-- The sift-down loop of `faiss::heap_pop` for comparator `CMin`:
`k` is the heap size at the call (slot `k` still holds the moving value
`v` during the loop, and participates as an ordinary child), children
`i1 = 2 i`, `i2 = 2 i + 1`; the smaller child (ties to `i2`, because
`C::cmp` is strict) moves up while it is not greater than `v`.  When
`fuel + i > k` holds at every call (as below), exhausting `fuel` coincides
with the `i1 > k` exit of the loop. -/
def heapSiftDown (v : ℚ) (vid : ℕ) (k : ℕ) : ℕ → List (ℚ × ℕ) → ℕ → List (ℚ × ℕ)
  | 0, l, i => setSlot l i (v, vid)
  | fuel + 1, l, i =>
    if k < 2 * i then setSlot l i (v, vid)
    else if 2 * i + 1 = k + 1 ∨ (getSlot l (2 * i)).1 < (getSlot l (2 * i + 1)).1 then
      if v < (getSlot l (2 * i)).1 then setSlot l i (v, vid)
      else heapSiftDown v vid k fuel (setSlot l i (getSlot l (2 * i))) (2 * i)
    else
      if v < (getSlot l (2 * i + 1)).1 then setSlot l i (v, vid)
      else heapSiftDown v vid k fuel (setSlot l i (getSlot l (2 * i + 1))) (2 * i + 1)

/-- `faiss::heap_pop<CMin>(heap_size--, heap_vals, shard_ids)`: the last
element sifts down from the root and the heap shrinks by one slot. -/
def heap_pop (l : List (ℚ × ℕ)) : List (ℚ × ℕ) :=
  (heapSiftDown (getSlot l l.length).1 (getSlot l l.length).2
    l.length l.length l 1).dropLast

/-- Distance read `D_in[stride * s + p]` of shard `s`, position `p`, for
one fixed query row of the stacked `[nshard][n][k]` array (reshaped as one
list of `k` distances per shard). -/
def din (Din : List (List ℚ)) (s p : ℕ) : ℚ := (Din.getD s []).getD p 0

/-- Label read `I_in[stride * s + p]` of shard `s`, position `p`, for one
fixed query row. -/
def iin (Iin : List (List ℤ)) (s p : ℕ) : ℤ := (Iin.getD s []).getD p (-1)

/-- Fuelled scan for `validCount`: number of consecutive positions from
`p` (at most `fuel` of them) whose label is non-negative. -/
def vcAux (f : ℕ → ℤ) : ℕ → ℕ → ℕ
  | 0, _ => 0
  | fuel + 1, p => if 0 ≤ f p then vcAux f fuel (p + 1) + 1 else 0

/-- The number of candidates of one shard's row that `merge_tables` can
ever consume: the length of the maximal prefix of the first `k` labels
that is non-negative (the loop reads a shard's row left to right and
stops at the first negative label or at position `k`). -/
def validCount (f : ℕ → ℤ) (k : ℕ) : ℕ := vcAux f k 0

/-- State of the per-row merge loop of `merge_tables`: the faiss heap
(`heap_vals` and `shard_ids`, zipped), the per-shard read pointers
(`pointer[s]`), and the output written so far (`D[0..j)`, `I[0..j)`). -/
structure RowState where
  heap : List (ℚ × ℕ)
  ptr : List ℕ
  outD : List ℚ
  outI : List ℤ
deriving DecidableEq

/-- The heap built by the seed loop over shards `0 .. t-1`. -/
def seedHeap (Din : List (List ℚ)) (Iin : List (List ℤ)) (t : ℕ) : List (ℚ × ℕ) :=
  (List.range t).foldl
    (fun h s => if 0 ≤ iin Iin s 0 then heap_push h (din Din s 0) s else h) []

/-- The seed loop of `merge_tables`: for `s = 0 .. nshard-1`,
`pointer[s] = 0`, and the head `(D_in[stride*s], s)` is pushed whenever
`I_in[stride*s] >= 0`. -/
def initState (nshard : ℕ) (Din : List (List ℚ)) (Iin : List (List ℤ)) : RowState :=
  { heap := seedHeap Din Iin nshard,
    ptr := List.replicate nshard 0,
    outD := [],
    outI := [] }

/-- `shard_ids[0]`: the shard of the heap root. -/
def topShard (st : RowState) : ℕ := (getSlot st.heap 1).2

/-- `heap_vals[0]`: the distance at the heap root. -/
def topDist (st : RowState) : ℚ := (getSlot st.heap 1).1

/-- `pointer[s]` for the root's shard. -/
def topPtr (st : RowState) : ℕ := st.ptr.getD (topShard st) 0

/-- One iteration of the `for (j = 0; j < k; j++)` loop of `merge_tables`:
if the heap is empty, emit `(-1, C::neutral())`; otherwise emit the root
`(heap_vals[0], I_in[stride*s + p] + translations[s])` for `s =
shard_ids[0]`, `p = pointer[s]`, pop, advance `pointer[s]`, and push the
shard's next candidate `(D_in[stride*s + p+1], s)` if it is within the
first `k` slots and has a non-negative label. -/
def mergeStep (k : ℕ) (Din : List (List ℚ)) (Iin : List (List ℤ))
    (trans : List ℤ) (st : RowState) : RowState :=
  if st.heap.length = 0 then
    { st with outD := st.outD ++ [CMin_neutral], outI := st.outI ++ [(-1 : ℤ)] }
  else if topPtr st + 1 < k ∧ 0 ≤ iin Iin (topShard st) (topPtr st + 1) then
    { heap := heap_push (heap_pop st.heap) (din Din (topShard st) (topPtr st + 1))
        (topShard st),
      ptr := st.ptr.set (topShard st) (topPtr st + 1),
      outD := st.outD ++ [topDist st],
      outI := st.outI ++ [iin Iin (topShard st) (topPtr st) + trans.getD (topShard st) 0] }
  else
    { heap := heap_pop st.heap,
      ptr := st.ptr.set (topShard st) (topPtr st + 1),
      outD := st.outD ++ [topDist st],
      outI := st.outI ++ [iin Iin (topShard st) (topPtr st) + trans.getD (topShard st) 0] }

/-- `m` iterations of the merge loop. -/
def mergeRun (k : ℕ) (Din : List (List ℚ)) (Iin : List (List ℤ))
    (trans : List ℤ) : ℕ → RowState → RowState
  | 0, st => st
  | m + 1, st => mergeRun k Din Iin trans m (mergeStep k Din Iin trans st)

/-- The body of `merge_tables` for one query row `i`: inputs are the `k`
distances and labels of each of the `nshard` shards for that row, and the
`translations` table; the result is the row `(D[i*k ..], I[i*k ..])` of
the two output arrays. -/
def merge_tables_row (k nshard : ℕ) (Din : List (List ℚ)) (Iin : List (List ℤ))
    (trans : List ℤ) : List ℚ × List ℤ :=
  let st := mergeRun k Din Iin trans k (initState nshard Din Iin)
  (st.outD, st.outI)

/-- `merge_tables<faiss::CMin<float, IntType>>`: the `k == 0` early return
writes nothing; otherwise every query row `0 .. n-1` is merged
independently (the `omp for` rows write disjoint output slices, so the
output is their per-row results in row order).  The stacked
`[nshard][n][k]` inputs are modelled shard-major, as in the source
(`all_distances + stride * s + i * k`). -/
def merge_tables (n k nshard : ℕ) (allD : List (List (List ℚ)))
    (allI : List (List (List ℤ))) (trans : List ℤ) : List (List ℚ × List ℤ) :=
  if k = 0 then []
  else (List.range n).map fun i =>
    merge_tables_row k nshard (allD.map fun sh => sh.getD i [])
      (allI.map fun sh => sh.getD i []) trans

/-- Modelled from the spec: the `metric` template argument
(`Distance::DistanceType`, declared in `distance/distance.h`, which is
not part of this file) restricted per spec §6 to the two supported
values plus one representative of every other enumerator. -/
inductive MetricType
  | EucUnexpandedL2
  | EucUnexpandedL2Sqrt
  | UnsupportedMetric
deriving DecidableEq

/-- The `translations == nullptr` branch of `brute_force_knn`: starting
from `total_n = 0`, for `i = 0 .. n_params-1` the loop pushes `total_n`
(the condition `i < n_params` is a tautology inside the loop) and then
adds `sizes[i]`. -/
def derive_id_ranges (n_params : ℕ) (sizes : List ℤ) : List ℤ :=
  ((List.range n_params).foldl
    (fun st i => (if i < n_params then st.1 ++ [st.2] else st.1, st.2 + sizes.getD i 0))
    ([], 0)).1

/-- Per-shard view of the dispatch loop of `brute_force_knn`: whether
`cudaPointerGetAttributes` resolved the shard's pointer to a device,
whether the faiss backend threw, and the local top-k tables
(`[n][k]` distances and labels) the backend would write on success. -/
structure ShardBackend where
  resolvesToDevice : Bool
  backendThrows : Bool
  outD : List (List ℚ)
  outI : List (List ℤ)
deriving DecidableEq

instance : Inhabited ShardBackend := ⟨⟨false, false, [], []⟩⟩

/-- A shard's slice of `all_D`/`all_I` is written by the backend exactly
when the pointer resolved to a device and no exception escaped the `try`
block; both failure paths only print and leave the slice untouched. -/
def shard_ok (b : ShardBackend) : Bool := b.resolvesToDevice && !b.backendThrows

/-- Host-side logic of `brute_force_knn` up to and including the merge:
the metric `ASSERT` (fail-fast, before any other work), the
`id_ranges` derivation or use of the caller's `translations` (whose
length is never compared with `n_params`), the per-shard dispatch into
the freshly `new`-allocated (hence uninitialized) stacked buffers whose
pre-existing contents `initD`/`initI` survive for every failed shard,
and the `merge_tables` call.  The `EucUnexpandedL2Sqrt` finishing step
(lines 209-213) is modelled separately by `knn_finish`; as proved there
it does not alter the returned buffers. -/
def brute_force_knn (metric : MetricType) (n_params : ℕ) (sizes : List ℤ)
    (n k : ℕ) (shards : List ShardBackend)
    (initD : List (List (List ℚ))) (initI : List (List (List ℤ)))
    (translations : Option (List ℤ)) : Except String (List (List ℚ × List ℤ)) :=
  if metric = MetricType.EucUnexpandedL2 ∨ metric = MetricType.EucUnexpandedL2Sqrt then
    let id_ranges : List ℤ :=
      match translations with
      | none => derive_id_ranges n_params sizes
      | some t => t
    let all_D := (List.range n_params).map fun i =>
      if shard_ok (shards.getD i default) then (shards.getD i default).outD
      else initD.getD i []
    let all_I := (List.range n_params).map fun i =>
      if shard_ok (shards.getD i default) then (shards.getD i default).outI
      else initI.getD i []
    Except.ok (merge_tables n k n_params all_D all_I id_ranges)
  else
    Except.error
      "Only EucUnexpandedL2Sqrt and EucUnexpandedL2 metrics are supported currently."

/-- The device-resident result buffers `res_D`, `res_I`. -/
structure DeviceBuffers where
  res_D : List ℚ
  res_I : List ℤ
deriving DecidableEq

/-- Lines 209-216 of `brute_force_knn`, in source order: for
`EucUnexpandedL2Sqrt` the element-wise `sqrt` `unaryOp` runs on `res_D`
(enqueued first on stream `s`), and `updateDevice` then copies the merged
host results `result_D`, `result_I` over `res_D`, `res_I` (enqueued after
on the same stream, hence executed after). -/
def knn_finish (metric : MetricType) (sqrtF : ℚ → ℚ) (bufs : DeviceBuffers)
    (result_D : List ℚ) (result_I : List ℤ) : DeviceBuffers :=
  let bufs1 := if metric = MetricType.EucUnexpandedL2Sqrt
    then { bufs with res_D := bufs.res_D.map sqrtF } else bufs
  let bufs2 := { bufs1 with res_D := result_D }
  { bufs2 with res_I := result_I }

/-- `Except.isOk`, inlined to keep the model self-contained. -/
def exceptIsOk : Except String (List (List ℚ × List ℤ)) → Bool
  | Except.ok _ => true
  | Except.error _ => false

/-! ## Elementary list lemmas -/

theorem getD_set_self {α : Type} (d : α) :
    ∀ (l : List α) (n : ℕ), n < l.length → ∀ a : α, (l.set n a).getD n d = a := by
  intro l
  induction l with
  | nil => intro n h; simp at h
  | cons b t ih =>
    intro n h a
    cases n with
    | zero => rfl
    | succ m => exact ih m (by simpa using h) a

theorem getD_set_of_ne {α : Type} (d : α) :
    ∀ (l : List α) (n m : ℕ), n ≠ m → ∀ a : α, (l.set n a).getD m d = l.getD m d := by
  intro l
  induction l with
  | nil => intro n m _ a; cases n <;> rfl
  | cons b t ih =>
    intro n m hnm a
    cases n with
    | zero =>
      cases m with
      | zero => exact absurd rfl hnm
      | succ j => rfl
    | succ i =>
      cases m with
      | zero => rfl
      | succ j => exact ih i j (by omega) a

theorem getD_concat_length {α : Type} (d : α) :
    ∀ (l : List α) (a : α), (l ++ [a]).getD l.length d = a := by
  intro l
  induction l with
  | nil => intro a; rfl
  | cons b t ih => intro a; exact ih a

theorem set_concat_length {α : Type} :
    ∀ (l : List α) (a b : α), (l ++ [a]).set l.length b = l ++ [b] := by
  intro l
  induction l with
  | nil => intro a b; rfl
  | cons c t ih => intro a b; simp [List.set, ih]

theorem getD_mem {α : Type} (d : α) :
    ∀ (l : List α) (n : ℕ), n < l.length → l.getD n d ∈ l := by
  intro l
  induction l with
  | nil => intro n h; simp at h
  | cons b t ih =>
    intro n h
    cases n with
    | zero => exact List.mem_cons_self b t
    | succ m => exact List.mem_cons_of_mem b (ih m (by simpa using h))

theorem getD_replicate_self {α : Type} (d a : α) :
    ∀ (n j : ℕ), j < n → (List.replicate n a).getD j d = a := by
  intro n
  induction n with
  | zero => intro j h; omega
  | succ m ih =>
    intro j h
    cases j with
    | zero => rfl
    | succ i => exact ih i (by omega)

theorem count_set_add {α : Type} [DecidableEq α] (d : α) :
    ∀ (l : List α) (n : ℕ), n < l.length → ∀ (a y : α),
      (l.set n a).count y + (if l.getD n d = y then 1 else 0)
        = l.count y + (if a = y then 1 else 0) := by
  intro l
  induction l with
  | nil => intro n h; simp at h
  | cons b t ih =>
    intro n h a y
    cases n with
    | zero =>
      simp only [List.set, List.getD_cons_zero, List.count_cons]
      by_cases hb : b = y <;> by_cases ha : a = y <;> simp [hb, ha]
    | succ m =>
      have hm : m < t.length := by simpa using h
      simp only [List.set, List.getD_cons_succ, List.count_cons]
      have := ih m hm a y
      simp only [List.getD_eq_getElem?_getD] at this ⊢
      by_cases hb : b = y <;> simp [hb] <;> omega

/-- Moving the value of slot `j` into slot `i` and then overwriting slot
`j` permutes to simply overwriting slot `i`: the single "hole move" step
shared by both sift loops. -/
theorem set_get_set_perm {α : Type} [DecidableEq α] (d : α) (l : List α)
    (i j : ℕ) (hi : i < l.length) (hj : j < l.length) (hij : i ≠ j) (x : α) :
    ((l.set i (l.getD j d)).set j x).Perm (l.set i x) := by
  rw [List.perm_iff_count]
  intro y
  have h1 : ((l.set i (l.getD j d)).set j x).count y + (if (l.set i (l.getD j d)).getD j d = y then 1 else 0)
      = (l.set i (l.getD j d)).count y + (if x = y then 1 else 0) :=
    count_set_add d _ j (by simpa using hj) x y
  have h2 : (l.set i (l.getD j d)).count y + (if l.getD i d = y then 1 else 0)
      = l.count y + (if l.getD j d = y then 1 else 0) :=
    count_set_add d l i hi _ y
  have h3 : (l.set i x).count y + (if l.getD i d = y then 1 else 0)
      = l.count y + (if x = y then 1 else 0) :=
    count_set_add d l i hi x y
  have h4 : (l.set i (l.getD j d)).getD j d = l.getD j d :=
    getD_set_of_ne d l i j hij _
  rw [h4] at h1
  by_cases e1 : l.getD j d = y <;> by_cases e2 : l.getD i d = y <;>
    by_cases e3 : x = y <;> simp [e1, e2, e3] at h1 h2 h3 ⊢ <;> omega

/-! ## The faiss heap: permutation facts -/

theorem length_setSlot (l : List (ℚ × ℕ)) (i : ℕ) (x : ℚ × ℕ) :
    (setSlot l i x).length = l.length := List.length_set ..

theorem getSlot_setSlot_self (l : List (ℚ × ℕ)) (i : ℕ) (x : ℚ × ℕ)
    (h1 : 1 ≤ i) (h2 : i ≤ l.length) : getSlot (setSlot l i x) i = x :=
  getD_set_self _ l (i - 1) (by omega) x

theorem getSlot_setSlot_of_ne (l : List (ℚ × ℕ)) (i j : ℕ) (x : ℚ × ℕ)
    (h1 : 1 ≤ i) (h2 : 1 ≤ j) (hij : i ≠ j) :
    getSlot (setSlot l i x) j = getSlot l j :=
  getD_set_of_ne _ l (i - 1) (j - 1) (by omega) x

theorem heapSiftUp_length (v : ℚ) (vid : ℕ) :
    ∀ (fuel : ℕ) (l : List (ℚ × ℕ)) (i : ℕ),
      (heapSiftUp v vid fuel l i).length = l.length := by
  intro fuel
  induction fuel with
  | zero => intro l i; exact length_setSlot ..
  | succ f ih =>
    intro l i
    simp only [heapSiftUp]
    split
    · split
      · rw [ih, length_setSlot]
      · exact length_setSlot ..
    · exact length_setSlot ..

theorem heapSiftDown_length (v : ℚ) (vid : ℕ) (k : ℕ) :
    ∀ (fuel : ℕ) (l : List (ℚ × ℕ)) (i : ℕ),
      (heapSiftDown v vid k fuel l i).length = l.length := by
  intro fuel
  induction fuel with
  | zero => intro l i; exact length_setSlot ..
  | succ f ih =>
    intro l i
    simp only [heapSiftDown]
    split
    · exact length_setSlot ..
    · split
      · split
        · exact length_setSlot ..
        · rw [ih, length_setSlot]
      · split
        · exact length_setSlot ..
        · rw [ih, length_setSlot]

theorem heap_push_length (l : List (ℚ × ℕ)) (v : ℚ) (vid : ℕ) :
    (heap_push l v vid).length = l.length + 1 := by
  unfold heap_push
  rw [heapSiftUp_length]
  simp

theorem heap_pop_length (l : List (ℚ × ℕ)) :
    (heap_pop l).length = l.length - 1 := by
  unfold heap_pop
  rw [List.length_dropLast, heapSiftDown_length]

theorem heapSiftUp_perm (v : ℚ) (vid : ℕ) :
    ∀ (fuel : ℕ) (l : List (ℚ × ℕ)) (i : ℕ), 1 ≤ i → i ≤ l.length →
      (heapSiftUp v vid fuel l i).Perm (setSlot l i (v, vid)) := by
  intro fuel
  induction fuel with
  | zero => intro l i _ _; exact List.Perm.refl _
  | succ f ih =>
    intro l i h1 h2
    simp only [heapSiftUp]
    split
    · rename_i hgt
      split
      · have hfa1 : 1 ≤ i / 2 := by omega
        have hfa2 : i / 2 ≤ (setSlot l i (getSlot l (i / 2))).length := by
          rw [length_setSlot]; omega
        refine (ih _ (i / 2) hfa1 hfa2).trans ?_
        have hne : i - 1 ≠ i / 2 - 1 := by omega
        have hget : getSlot l (i / 2) = l.getD (i / 2 - 1) (0, 0) := rfl
        unfold setSlot
        rw [hget]
        exact set_get_set_perm (0, 0) l (i - 1) (i / 2 - 1) (by omega) (by omega) hne (v, vid)
      · exact List.Perm.refl _
    · exact List.Perm.refl _

theorem heap_push_perm (l : List (ℚ × ℕ)) (v : ℚ) (vid : ℕ) :
    (heap_push l v vid).Perm ((v, vid) :: l) := by
  unfold heap_push
  refine (heapSiftUp_perm v vid _ _ _ (by omega) (by simp)).trans ?_
  have : setSlot (l ++ [(v, vid)]) (l.length + 1) (v, vid) = l ++ [(v, vid)] := by
    unfold setSlot
    simp only [Nat.add_sub_cancel]
    exact set_concat_length l (v, vid) (v, vid)
  rw [this]
  exact List.perm_append_singleton _ l

theorem heapSiftDown_perm (v : ℚ) (vid : ℕ) (k : ℕ) :
    ∀ (fuel : ℕ) (l : List (ℚ × ℕ)) (i : ℕ), 1 ≤ i → i ≤ k → k ≤ l.length →
      (heapSiftDown v vid k fuel l i).Perm (setSlot l i (v, vid)) := by
  intro fuel
  induction fuel with
  | zero => intro l i _ _ _; exact List.Perm.refl _
  | succ f ih =>
    intro l i h1 hik hk
    simp only [heapSiftDown]
    split
    · exact List.Perm.refl _
    · rename_i hle
      have hchild : 2 * i ≤ k := by omega
      split
      · split
        · exact List.Perm.refl _
        · refine (ih _ (2 * i) (by omega) hchild (by rw [length_setSlot]; exact hk)).trans ?_
          unfold setSlot getSlot
          exact set_get_set_perm (0, 0) l (i - 1) (2 * i - 1) (by omega) (by omega)
            (by omega) (v, vid)
      · rename_i hsel
        have hc2 : 2 * i + 1 ≤ k := by
          rcases Nat.lt_or_ge (2 * i + 1) (k + 1) with h | h
          · omega
          · exact absurd (Or.inl (by omega)) hsel
        split
        · exact List.Perm.refl _
        · refine (ih _ (2 * i + 1) (by omega) hc2 (by rw [length_setSlot]; exact hk)).trans ?_
          unfold setSlot getSlot
          exact set_get_set_perm (0, 0) l (i - 1) (2 * i + 1 - 1) (by omega) (by omega)
            (by omega) (v, vid)

theorem heapSiftDown_lastSlot (v : ℚ) (vid : ℕ) (k : ℕ) :
    ∀ (fuel : ℕ) (l : List (ℚ × ℕ)) (i : ℕ), 1 ≤ i → i ≤ k → k ≤ l.length →
      getSlot (heapSiftDown v vid k fuel l i) k = getSlot l k ∨
        getSlot (heapSiftDown v vid k fuel l i) k = (v, vid) := by
  intro fuel
  induction fuel with
  | zero =>
    intro l i h1 hik hk
    by_cases h : i = k
    · right; rw [h]; exact getSlot_setSlot_self l k (v, vid) (by omega) hk
    · left; exact getSlot_setSlot_of_ne l i k (v, vid) h1 (by omega) h
  | succ f ih =>
    intro l i h1 hik hk
    simp only [heapSiftDown]
    split
    · by_cases h : i = k
      · right; rw [h]; exact getSlot_setSlot_self l k (v, vid) (by omega) hk
      · left; exact getSlot_setSlot_of_ne l i k (v, vid) h1 (by omega) h
    · rename_i hle
      have hchild : 2 * i ≤ k := by omega
      have hik' : i < k := by omega
      split
      · split
        · left; exact getSlot_setSlot_of_ne l i k (v, vid) h1 (by omega) (by omega)
        · have := ih (setSlot l i (getSlot l (2 * i))) (2 * i) (by omega) hchild
            (by rw [length_setSlot]; exact hk)
          rcases this with h | h
          · rw [getSlot_setSlot_of_ne l i k _ h1 (by omega) (by omega)] at h
            left; exact h
          · right; exact h
      · rename_i hsel
        have hc2 : 2 * i + 1 ≤ k := by
          rcases Nat.lt_or_ge (2 * i + 1) (k + 1) with h | h
          · omega
          · exact absurd (Or.inl (by omega)) hsel
        split
        · left; exact getSlot_setSlot_of_ne l i k (v, vid) h1 (by omega) (by omega)
        · have := ih (setSlot l i (getSlot l (2 * i + 1))) (2 * i + 1) (by omega) hc2
            (by rw [length_setSlot]; exact hk)
          rcases this with h | h
          · rw [getSlot_setSlot_of_ne l i k _ h1 (by omega) (by omega)] at h
            left; exact h
          · right; exact h

theorem getLast_eq_getSlot_length (l : List (ℚ × ℕ)) (h : l ≠ []) :
    l.getLast h = getSlot l l.length := by
  have hlen : 1 ≤ l.length := List.length_pos.mpr h
  rw [List.getLast_eq_getElem]
  unfold getSlot
  rw [List.getD_eq_getElem?_getD, List.getElem?_eq_getElem (by omega)]
  rfl

theorem heap_pop_tail_perm (l : List (ℚ × ℕ)) (h : l ≠ []) :
    (heap_pop l).Perm l.tail := by
  have hlen : 1 ≤ l.length := List.length_pos.mpr h
  unfold heap_pop
  set S := heapSiftDown (getSlot l l.length).1 (getSlot l l.length).2
    l.length l.length l 1 with hS
  have hSlen : S.length = l.length := by rw [hS]; exact heapSiftDown_length ..
  have hSperm : S.Perm (setSlot l 1 (getSlot l l.length)) := by
    rw [hS]
    simpa using heapSiftDown_perm (getSlot l l.length).1 (getSlot l l.length).2
      l.length l.length l 1 (by omega) hlen (le_refl _)
  have hSlast : getSlot S l.length = getSlot l l.length := by
    rw [hS]
    rcases heapSiftDown_lastSlot (getSlot l l.length).1 (getSlot l l.length).2
      l.length l.length l 1 (by omega) hlen (le_refl _) with h' | h'
    · exact h'
    · simpa using h'
  have hSne : S ≠ [] := by
    intro hnil; rw [hnil] at hSlen; simp at hSlen; omega
  have hgetLast : S.getLast hSne = getSlot l l.length := by
    rw [getLast_eq_getSlot_length S hSne, hSlen]; exact hSlast
  have hSdecomp : S.dropLast ++ [getSlot l l.length] = S := by
    rw [← hgetLast]; exact List.dropLast_append_getLast hSne
  have hPS : S.Perm (getSlot l l.length :: S.dropLast) := by
    have := List.perm_append_singleton (getSlot l l.length) S.dropLast
    rw [hSdecomp] at this
    exact this
  have hset : (setSlot l 1 (getSlot l l.length)).Perm (getSlot l l.length :: l.tail) := by
    cases l with
    | nil => exact absurd rfl h
    | cons a t => exact List.Perm.refl _
  have hchain : (getSlot l l.length :: S.dropLast).Perm (getSlot l l.length :: l.tail) :=
    hPS.symm.trans (hSperm.trans hset)
  exact hchain.cons_inv

/-! ## The faiss heap: the heap property -/

/-- The 1-based binary min-heap property on slots `1 .. m`. -/
def IsHeapTo (l : List (ℚ × ℕ)) (m : ℕ) : Prop :=
  ∀ j, 2 ≤ j → j ≤ m → (getSlot l (j / 2)).1 ≤ (getSlot l j).1

/-- The heap property of the whole array, as maintained between
`heap_push` / `heap_pop` calls. -/
def IsHeap (l : List (ℚ × ℕ)) : Prop := IsHeapTo l l.length

theorem isHeapTo_root_le (l : List (ℚ × ℕ)) (m : ℕ) (h : IsHeapTo l m) :
    ∀ j, 1 ≤ j → j ≤ m → (getSlot l 1).1 ≤ (getSlot l j).1 := by
  intro j
  induction j using Nat.strong_induction_on with
  | _ j ih =>
    intro h1 hm
    rcases Nat.lt_or_ge j 2 with hj | hj
    · have : j = 1 := by omega
      rw [this]
    · have hpar := ih (j / 2) (by omega) (by omega) (by omega)
      exact le_trans hpar (h j hj hm)

theorem getSlot_eq_getElem (l : List (ℚ × ℕ)) (n : ℕ) (h : n < l.length) :
    getSlot l (n + 1) = l[n] := by
  unfold getSlot
  rw [Nat.add_sub_cancel, List.getD_eq_getElem?_getD, List.getElem?_eq_getElem h]
  rfl

theorem isHeap_root_le_mem (l : List (ℚ × ℕ)) (h : IsHeap l) (y : ℚ × ℕ)
    (hy : y ∈ l) : (getSlot l 1).1 ≤ y.1 := by
  obtain ⟨n, hn, hget⟩ := List.getElem_of_mem hy
  have := isHeapTo_root_le l l.length h (n + 1) (by omega) (by omega)
  rwa [getSlot_eq_getElem l n hn, hget] at this

/-- The sift-up invariant of `faiss::heap_push` with the hole at 1-based
slot `i` holding the pushed value `v`: every heap edge not incident to the
hole holds, `v` fits above the hole's children, and the hole's parent fits
above the hole's children (so the parent may move down into the hole). -/
theorem heapSiftUp_isHeapTo (v : ℚ) (vid : ℕ) :
    ∀ (fuel : ℕ) (l : List (ℚ × ℕ)) (m i : ℕ), 1 ≤ i → i ≤ m → m = l.length →
      i ≤ fuel →
      (∀ j, 2 ≤ j → j ≤ m → j ≠ i → j / 2 ≠ i →
        (getSlot l (j / 2)).1 ≤ (getSlot l j).1) →
      (∀ j, 2 ≤ j → j ≤ m → j / 2 = i → v ≤ (getSlot l j).1) →
      (∀ j, 2 ≤ j → j ≤ m → j / 2 = i → 2 ≤ i →
        (getSlot l (i / 2)).1 ≤ (getSlot l j).1) →
      IsHeapTo (heapSiftUp v vid fuel l i) m := by
  intro fuel
  induction fuel with
  | zero => intro l m i h1 _ _ hfuel _ _ _; omega
  | succ f ih =>
    intro l m i h1 him hm hfuel hU1 hU2 hU3
    simp only [heapSiftUp]
    by_cases hgt : 1 < i
    · rw [if_pos hgt]
      by_cases hlt : v < (getSlot l (i / 2)).1
      · rw [if_pos hlt]
        set l₂ := setSlot l i (getSlot l (i / 2)) with hl₂
        have hval : ∀ j, 1 ≤ j → j ≠ i → getSlot l₂ j = getSlot l j := by
          intro j hj hne
          exact getSlot_setSlot_of_ne l i j _ (by omega) hj (by omega)
        have hvali : getSlot l₂ i = getSlot l (i / 2) :=
          getSlot_setSlot_self l i _ (by omega) (by omega)
        refine ih l₂ m (i / 2) (by omega) (by omega)
          (by rw [hl₂, length_setSlot]; exact hm) (by omega) ?_ ?_ ?_
        · -- edges not incident to the new hole i / 2
          intro j hj2 hjm hji2 hjp2
          by_cases hji : j = i
          · -- the repaired edge (i/2, i)
            rw [hji, hvali, hval (i / 2) (by omega) (by omega)]
          · by_cases hjp : j / 2 = i
            · -- children of the old hole, whose slot now holds the old parent
              rw [hjp, hvali, hval j (by omega) hji]
              exact hU3 j hj2 hjm hjp (by omega)
            · rw [hval j (by omega) hji, hval (j / 2) (by omega) hjp]
              exact hU1 j hj2 hjm hji hjp
        · -- v fits above the children of the new hole i / 2
          intro j hj2 hjm hjp
          by_cases hji : j = i
          · rw [hji, hvali]
            exact le_of_lt hlt
          · rw [hval j (by omega) hji]
            have := hU1 j hj2 hjm hji (by omega)
            rw [hjp] at this
            exact le_trans (le_of_lt hlt) this
        · -- the grandparent fits above the children of the new hole
          intro j hj2 hjm hjp hi2
          have hgne : i / 2 / 2 ≠ i := by omega
          rw [hval (i / 2 / 2) (by omega) hgne]
          have hedge : (getSlot l (i / 2 / 2)).1 ≤ (getSlot l (i / 2)).1 := by
            have := hU1 (i / 2) (by omega) (by omega) (by omega) (by omega)
            exact this
          by_cases hji : j = i
          · rw [hji, hvali]
            exact hedge
          · rw [hval j (by omega) hji]
            have := hU1 j hj2 hjm hji (by omega)
            rw [hjp] at this
            exact le_trans hedge this
      · rw [if_neg hlt]
        intro j hj2 hjm
        have hjval : ∀ j', 1 ≤ j' → j' ≠ i →
            getSlot (setSlot l i (v, vid)) j' = getSlot l j' := by
          intro j' hj' hne
          exact getSlot_setSlot_of_ne l i j' _ (by omega) hj' (by omega)
        have hival : getSlot (setSlot l i (v, vid)) i = (v, vid) :=
          getSlot_setSlot_self l i _ (by omega) (by omega)
        by_cases hji : j = i
        · rw [hji, hival, hjval (i / 2) (by omega) (by omega)]
          exact le_of_not_lt hlt
        · by_cases hjp : j / 2 = i
          · rw [hjp, hival, hjval j (by omega) hji]
            exact hU2 j hj2 hjm hjp
          · rw [hjval j (by omega) hji, hjval (j / 2) (by omega) hjp]
            exact hU1 j hj2 hjm hji hjp
    · rw [if_neg hgt]
      have hi1 : i = 1 := by omega
      intro j hj2 hjm
      have hjval : ∀ j', 1 ≤ j' → j' ≠ i →
          getSlot (setSlot l i (v, vid)) j' = getSlot l j' := by
        intro j' hj' hne
        exact getSlot_setSlot_of_ne l i j' _ (by omega) hj' (by omega)
      have hival : getSlot (setSlot l i (v, vid)) i = (v, vid) :=
        getSlot_setSlot_self l i _ (by omega) (by omega)
      by_cases hjp : j / 2 = i
      · rw [hjp, hival, hjval j (by omega) (by omega)]
        exact hU2 j hj2 hjm hjp
      · rw [hjval j (by omega) (by omega), hjval (j / 2) (by omega) hjp]
        exact hU1 j hj2 hjm (by omega) hjp

theorem getSlot_append_left (l l' : List (ℚ × ℕ)) (j : ℕ) (h1 : 1 ≤ j)
    (h2 : j ≤ l.length) : getSlot (l ++ l') j = getSlot l j := by
  unfold getSlot
  exact List.getD_append l l' (0, 0) (j - 1) (by omega)

theorem heap_push_isHeap (l : List (ℚ × ℕ)) (v : ℚ) (vid : ℕ) (h : IsHeap l) :
    IsHeap (heap_push l v vid) := by
  unfold IsHeap at *
  rw [heap_push_length]
  unfold heap_push
  have hlen : (l ++ [(v, vid)]).length = l.length + 1 := by simp
  refine heapSiftUp_isHeapTo v vid (l.length + 1) (l ++ [(v, vid)])
    (l.length + 1) (l.length + 1) (by omega) (le_refl _) hlen.symm (le_refl _)
    ?_ ?_ ?_
  · intro j hj2 hjm hji _
    have hjl : j ≤ l.length := by omega
    rw [getSlot_append_left l _ j (by omega) hjl,
      getSlot_append_left l _ (j / 2) (by omega) (by omega)]
    exact h j hj2 hjl
  · intro j hj2 hjm hjp
    omega
  · intro j hj2 hjm hjp _
    omega

/-- The sift-down invariant of `faiss::heap_pop` with the hole at 1-based
slot `i` carrying the value `v` of the old last slot: every heap edge not
leaving the hole holds, the hole's parent fits above `v`, and the hole's
parent fits above the hole's children. -/
theorem heapSiftDown_isHeapTo (v : ℚ) (vid : ℕ) (k : ℕ) :
    ∀ (fuel : ℕ) (l : List (ℚ × ℕ)) (i : ℕ), 1 ≤ i → i ≤ k → k ≤ l.length →
      k + 1 ≤ i + fuel →
      (∀ j, 2 ≤ j → j ≤ k → j ≠ i → j / 2 ≠ i →
        (getSlot l (j / 2)).1 ≤ (getSlot l j).1) →
      (2 ≤ i → (getSlot l (i / 2)).1 ≤ v) →
      (∀ j, 2 ≤ j → j ≤ k → j / 2 = i → 2 ≤ i →
        (getSlot l (i / 2)).1 ≤ (getSlot l j).1) →
      IsHeapTo (heapSiftDown v vid k fuel l i) k := by
  intro fuel
  induction fuel with
  | zero => intro l i h1 hik hk hfuel _ _ _; omega
  | succ f ih =>
    intro l i h1 hik hk hfuel hD1 hD2 hD3
    have hsetval : ∀ j, 1 ≤ j → j ≠ i →
        getSlot (setSlot l i (v, vid)) j = getSlot l j := by
      intro j hj hne
      exact getSlot_setSlot_of_ne l i j _ (by omega) hj (by omega)
    have hsetival : getSlot (setSlot l i (v, vid)) i = (v, vid) :=
      getSlot_setSlot_self l i _ (by omega) (by omega)
    -- placing `v` at the hole yields a heap as soon as `v` fits above
    -- every child of the hole that lies within `1 .. k`
    have hplace : (∀ j, 2 ≤ j → j ≤ k → j / 2 = i → v ≤ (getSlot l j).1) →
        IsHeapTo (setSlot l i (v, vid)) k := by
      intro hchild j hj2 hjk
      by_cases hji : j = i
      · rw [hji, hsetival, hsetval (i / 2) (by omega) (by omega)]
        exact hD2 (by omega)
      · by_cases hjp : j / 2 = i
        · rw [hjp, hsetival, hsetval j (by omega) hji]
          exact hchild j hj2 hjk hjp
        · rw [hsetval j (by omega) hji, hsetval (j / 2) (by omega) hjp]
          exact hD1 j hj2 hjk hji hjp
    simp only [heapSiftDown]
    by_cases hnoc : k < 2 * i
    · rw [if_pos hnoc]
      exact hplace (fun j _ hjk hjp => by omega)
    · rw [if_neg hnoc]
      have hc1 : 2 * i ≤ k := by omega
      by_cases hsel : 2 * i + 1 = k + 1 ∨ (getSlot l (2 * i)).1 < (getSlot l (2 * i + 1)).1
      · rw [if_pos hsel]
        by_cases hstop : v < (getSlot l (2 * i)).1
        · rw [if_pos hstop]
          refine hplace ?_
          intro j hj2 hjk hjp
          have hj12 : j = 2 * i ∨ j = 2 * i + 1 := by omega
          rcases hj12 with hj | hj
          · rw [hj]; exact le_of_lt hstop
          · have hc2 : 2 * i + 1 ≤ k := by omega
            have hlt2 : (getSlot l (2 * i)).1 < (getSlot l (2 * i + 1)).1 := by
              rcases hsel with h' | h'
              · omega
              · exact h'
            rw [hj]
            exact le_of_lt (lt_trans hstop hlt2)
        · rw [if_neg hstop]
          -- the hole moves to the left child 2 * i
          have hval : ∀ j, 1 ≤ j → j ≠ i → getSlot (setSlot l i (getSlot l (2 * i))) j = getSlot l j := by
            intro j hj hne
            exact getSlot_setSlot_of_ne l i j _ (by omega) hj (by omega)
          have hvali : getSlot (setSlot l i (getSlot l (2 * i))) i = getSlot l (2 * i) :=
            getSlot_setSlot_self l i _ (by omega) (by omega)
          refine ih (setSlot l i (getSlot l (2 * i))) (2 * i) (by omega) hc1
            (by rw [length_setSlot]; exact hk) (by omega) ?_ ?_ ?_
          · intro j hj2 hjk hji hjp
            by_cases hjo : j = i
            · rw [hjo, hvali, hval (i / 2) (by omega) (by omega)]
              exact hD3 (2 * i) (by omega) hc1 (by omega) (by omega)
            · by_cases hjop : j / 2 = i
              · have hj21 : j = 2 * i + 1 := by omega
                have hc2 : 2 * i + 1 ≤ k := by omega
                rw [hjop, hvali, hval j (by omega) hjo, hj21]
                rcases hsel with h' | h'
                · omega
                · exact le_of_lt h'
              · rw [hval j (by omega) hjo, hval (j / 2) (by omega) hjop]
                exact hD1 j hj2 hjk hjo hjop
          · intro _
            have : (2 * i) / 2 = i := by omega
            rw [this, hvali]
            exact le_of_not_lt hstop
          · intro j hj2 hjk hjp _
            have hedge := hD1 j hj2 hjk (by omega) (by omega)
            rw [hjp] at hedge
            have : (2 * i) / 2 = i := by omega
            rw [this, hvali, hval j (by omega) (by omega)]
            exact hedge
      · rw [if_neg hsel]
        push_neg at hsel
        obtain ⟨hne, hle⟩ := hsel
        have hc2 : 2 * i + 1 ≤ k := by omega
        by_cases hstop : v < (getSlot l (2 * i + 1)).1
        · rw [if_pos hstop]
          refine hplace ?_
          intro j hj2 hjk hjp
          have hj12 : j = 2 * i ∨ j = 2 * i + 1 := by omega
          rcases hj12 with hj | hj
          · rw [hj]; exact le_trans (le_of_lt hstop) hle
          · rw [hj]; exact le_of_lt hstop
        · rw [if_neg hstop]
          have hval : ∀ j, 1 ≤ j → j ≠ i →
              getSlot (setSlot l i (getSlot l (2 * i + 1))) j = getSlot l j := by
            intro j hj hne
            exact getSlot_setSlot_of_ne l i j _ (by omega) hj (by omega)
          have hvali : getSlot (setSlot l i (getSlot l (2 * i + 1))) i
              = getSlot l (2 * i + 1) :=
            getSlot_setSlot_self l i _ (by omega) (by omega)
          refine ih (setSlot l i (getSlot l (2 * i + 1))) (2 * i + 1) (by omega) hc2
            (by rw [length_setSlot]; exact hk) (by omega) ?_ ?_ ?_
          · intro j hj2 hjk hji hjp
            by_cases hjo : j = i
            · rw [hjo, hvali, hval (i / 2) (by omega) (by omega)]
              exact hD3 (2 * i + 1) (by omega) hc2 (by omega) (by omega)
            · by_cases hjop : j / 2 = i
              · have hj21 : j = 2 * i := by omega
                rw [hjop, hvali, hval j (by omega) hjo, hj21]
                exact hle
              · rw [hval j (by omega) hjo, hval (j / 2) (by omega) hjop]
                exact hD1 j hj2 hjk hjo hjop
          · intro _
            have : (2 * i + 1) / 2 = i := by omega
            rw [this, hvali]
            exact le_of_not_lt hstop
          · intro j hj2 hjk hjp _
            have hedge := hD1 j hj2 hjk (by omega) (by omega)
            rw [hjp] at hedge
            have : (2 * i + 1) / 2 = i := by omega
            rw [this, hvali, hval j (by omega) (by omega)]
            exact hedge

theorem getSlot_dropLast (l : List (ℚ × ℕ)) (j : ℕ) (h1 : 1 ≤ j)
    (h2 : j ≤ l.length - 1) : getSlot l.dropLast j = getSlot l j := by
  unfold getSlot
  rw [List.getD_eq_getElem?_getD, List.getD_eq_getElem?_getD,
    List.getElem?_eq_getElem (by rw [List.length_dropLast]; omega),
    List.getElem?_eq_getElem (by omega)]
  simp [List.getElem_dropLast]

theorem heap_pop_isHeap (l : List (ℚ × ℕ)) (hne : l ≠ []) (h : IsHeap l) :
    IsHeap (heap_pop l) := by
  have hlen : 1 ≤ l.length := List.length_pos.mpr hne
  have hS : IsHeapTo (heapSiftDown (getSlot l l.length).1 (getSlot l l.length).2
      l.length l.length l 1) l.length := by
    refine heapSiftDown_isHeapTo (getSlot l l.length).1 (getSlot l l.length).2
      l.length l.length l 1 (le_refl _) hlen (le_refl _) (by omega) ?_ ?_ ?_
    · intro j hj2 hjk _ _
      exact h j hj2 hjk
    · intro h2; omega
    · intro j _ _ _ h2; omega
  unfold IsHeap
  rw [heap_pop_length]
  unfold heap_pop
  intro j hj2 hjk
  have hSD : (heapSiftDown (getSlot l l.length).1 (getSlot l l.length).2
      l.length l.length l 1).length = l.length := heapSiftDown_length ..
  rw [getSlot_dropLast _ j (by omega) (by rw [hSD]; omega),
    getSlot_dropLast _ (j / 2) (by omega) (by rw [hSD]; omega)]
  exact hS j hj2 (by omega)

theorem heap_pop_perm (l : List (ℚ × ℕ)) (h : l ≠ []) :
    l.Perm (getSlot l 1 :: heap_pop l) := by
  have htop : getSlot l 1 :: l.tail = l := by
    cases l with
    | nil => exact absurd rfl h
    | cons a t => rfl
  have hcons : (getSlot l 1 :: l.tail).Perm (getSlot l 1 :: heap_pop l) :=
    ((heap_pop_tail_perm l h).symm.cons _)
  rw [htop] at hcons
  exact hcons

theorem getSlot_one_mem (l : List (ℚ × ℕ)) (h : l ≠ []) : getSlot l 1 ∈ l :=
  getD_mem (0, 0) l 0 (List.length_pos.mpr h)

theorem heap_push_coe (l : List (ℚ × ℕ)) (v : ℚ) (vid : ℕ) :
    (heap_push l v vid : Multiset (ℚ × ℕ)) = (v, vid) ::ₘ (l : Multiset (ℚ × ℕ)) := by
  exact_mod_cast Multiset.coe_eq_coe.mpr (heap_push_perm l v vid)

theorem heap_pop_coe (l : List (ℚ × ℕ)) (h : l ≠ []) :
    (l : Multiset (ℚ × ℕ)) = getSlot l 1 ::ₘ (heap_pop l : Multiset (ℚ × ℕ)) := by
  exact_mod_cast Multiset.coe_eq_coe.mpr (heap_pop_perm l h)

/-! ## The consumable candidates of a shard row -/

theorem vcAux_le (f : ℕ → ℤ) : ∀ (fuel p : ℕ), vcAux f fuel p ≤ fuel := by
  intro fuel
  induction fuel with
  | zero => intro p; simp [vcAux]
  | succ n ih =>
    intro p
    simp only [vcAux]
    split
    · have := ih (p + 1); omega
    · omega

theorem vcAux_valid (f : ℕ → ℤ) : ∀ (fuel p q : ℕ), q < vcAux f fuel p →
    0 ≤ f (p + q) := by
  intro fuel
  induction fuel with
  | zero => intro p q h; simp [vcAux] at h
  | succ n ih =>
    intro p q h
    simp only [vcAux] at h
    by_cases h0 : 0 ≤ f p
    · rw [if_pos h0] at h
      cases q with
      | zero => simpa using h0
      | succ m =>
        have := ih (p + 1) m (by omega)
        have harg : p + 1 + m = p + (m + 1) := by omega
        rwa [harg] at this
    · rw [if_neg h0] at h
      omega

theorem lt_vcAux_of (f : ℕ → ℤ) : ∀ (fuel p q : ℕ), q < fuel →
    (∀ r, r ≤ q → 0 ≤ f (p + r)) → q < vcAux f fuel p := by
  intro fuel
  induction fuel with
  | zero => intro p q h _; omega
  | succ n ih =>
    intro p q h hall
    simp only [vcAux]
    have h0 : 0 ≤ f p := by simpa using hall 0 (by omega)
    rw [if_pos h0]
    cases q with
    | zero => omega
    | succ m =>
      have := ih (p + 1) m (by omega) (fun r hr => by
        have := hall (r + 1) (by omega)
        have harg : p + (r + 1) = p + 1 + r := by omega
        rwa [harg] at this)
      omega

theorem validCount_le (f : ℕ → ℤ) (k : ℕ) : validCount f k ≤ k := vcAux_le f k 0

theorem validCount_valid (f : ℕ → ℤ) (k q : ℕ) (h : q < validCount f k) :
    0 ≤ f q := by
  have := vcAux_valid f k 0 q h
  simpa using this

theorem lt_validCount (f : ℕ → ℤ) (k q : ℕ) (hq : q < k)
    (hall : ∀ r, r ≤ q → 0 ≤ f r) : q < validCount f k :=
  lt_vcAux_of f k 0 q hq (fun r hr => by simpa using hall r hr)

theorem validCount_pos (f : ℕ → ℤ) (k : ℕ) (hk : 0 < k) :
    0 < validCount f k ↔ 0 ≤ f 0 := by
  constructor
  · intro h; exact validCount_valid f k 0 h
  · intro h; exact lt_validCount f k 0 hk (fun r hr => by
      have : r = 0 := by omega
      rwa [this])

theorem validCount_succ_lt (f : ℕ → ℤ) (k p : ℕ) (hp : p < validCount f k)
    (h1 : p + 1 < k) (h2 : 0 ≤ f (p + 1)) : p + 1 < validCount f k := by
  refine lt_validCount f k (p + 1) h1 ?_
  intro r hr
  rcases Nat.lt_or_ge r (p + 1) with h | h
  · exact validCount_valid f k r (by omega)
  · have : r = p + 1 := by omega
    rwa [this]

theorem validCount_succ_ge (f : ℕ → ℤ) (k p : ℕ)
    (h : ¬(p + 1 < k ∧ 0 ≤ f (p + 1))) : validCount f k ≤ p + 1 := by
  by_contra hcon
  push_neg at hcon
  have h1 : p + 1 < k := by have := validCount_le f k; omega
  have h2 : 0 ≤ f (p + 1) := validCount_valid f k (p + 1) hcon
  exact h ⟨h1, h2⟩

/-! ## The merge-loop invariant -/

/-- The number of candidates of shard `s` that the merge can consume for
the current query row. -/
def vc (k : ℕ) (Iin : List (List ℤ)) (s : ℕ) : ℕ :=
  validCount (fun p => iin Iin s p) k

/-- The current read pointer of shard `s` (`pointer[s]`). -/
def ptrF (st : RowState) (s : ℕ) : ℕ := st.ptr.getD s 0

/-- The intended contents of the faiss heap: one entry
`(D_in[stride*s + pointer[s]], s)` per shard that still has a consumable
candidate. -/
def heapSpecM (k nshard : ℕ) (Din : List (List ℚ)) (Iin : List (List ℤ))
    (ptr : ℕ → ℕ) : Multiset (ℚ × ℕ) :=
  (((Finset.range nshard).filter fun s => ptr s < vc k Iin s).val.map
    fun s => (din Din s (ptr s), s))

/-- The total number of candidates consumable for this query row across
all shards (`m` in the spec's sentinel-propagation property). -/
def totalValid (k nshard : ℕ) (Iin : List (List ℤ)) : ℕ :=
  ∑ s ∈ Finset.range nshard, vc k Iin s

/-- The positions already consumed from shard `s`, in emission order, as
recorded by a provenance listing. -/
def provPos (prov : List (Option (ℕ × ℕ))) (s : ℕ) : List ℕ :=
  prov.filterMap fun o => match o with
    | some (s', p) => if s' = s then some p else none
    | none => none

/-- The number of output slots that were produced by popping a candidate
(as opposed to sentinel slots). -/
def countSome (prov : List (Option (ℕ × ℕ))) : ℕ :=
  (prov.filter fun o => o.isSome).length

/-- Sum of the per-shard read pointers: the number of candidates consumed
so far. -/
def sumPtr (nshard : ℕ) (st : RowState) : ℕ :=
  ∑ s ∈ Finset.range nshard, ptrF st s

/-- Invariant of the `for (j = 0; j < k; j++)` loop of `merge_tables`
after `j` iterations, with `prov` recording for each emitted slot either
the `(shard, position)` of the popped candidate or `none` for a sentinel
slot. -/
structure RowInv (k nshard : ℕ) (Din : List (List ℚ)) (Iin : List (List ℤ))
    (trans : List ℤ) (j : ℕ) (st : RowState)
    (prov : List (Option (ℕ × ℕ))) : Prop where
  ptr_len : st.ptr.length = nshard
  ptr_le : ∀ s, s < nshard → ptrF st s ≤ vc k Iin s
  heap_ms : (st.heap : Multiset (ℚ × ℕ)) = heapSpecM k nshard Din Iin (ptrF st)
  heap_ok : IsHeap st.heap
  outD_len : st.outD.length = j
  outI_len : st.outI.length = j
  prov_len : prov.length = j
  prov_out : ∀ jj, jj < j →
    match prov.getD jj none with
    | none => st.outI.getD jj (-1) = -1 ∧ st.outD.getD jj 0 = CMin_neutral
    | some (s, p) => s < nshard ∧ p < vc k Iin s ∧
        st.outD.getD jj 0 = din Din s p ∧
        st.outI.getD jj (-1) = iin Iin s p + trans.getD s 0
  prov_shard : ∀ s, provPos prov s = List.range (ptrF st s)
  prov_count : countSome prov = sumPtr nshard st
  prov_min : countSome prov = min j (totalValid k nshard Iin)
  prov_pref : ∀ jj, jj < j → ((prov.getD jj none).isSome ↔ jj < countSome prov)

theorem heapSpecM_empty_iff (k nshard : ℕ) (Din : List (List ℚ))
    (Iin : List (List ℤ)) (ptr : ℕ → ℕ) :
    heapSpecM k nshard Din Iin ptr = 0 ↔
      ∀ s, s < nshard → ¬ ptr s < vc k Iin s := by
  unfold heapSpecM
  rw [Multiset.map_eq_zero, Finset.val_eq_zero, Finset.filter_eq_empty_iff]
  constructor
  · intro h s hs; exact h (Finset.mem_range.mpr hs)
  · intro h s hs; exact h s (Finset.mem_range.mp hs)

theorem heapSpecM_cons (k nshard : ℕ) (Din : List (List ℚ)) (Iin : List (List ℤ))
    (ptr : ℕ → ℕ) (s : ℕ) (hs : s < nshard) (hact : ptr s < vc k Iin s) :
    heapSpecM k nshard Din Iin ptr
      = (din Din s (ptr s), s) ::ₘ
        ((((Finset.range nshard).filter fun t => ptr t < vc k Iin t).erase s).val.map
          fun t => (din Din t (ptr t), t)) := by
  unfold heapSpecM
  have hmem : s ∈ (Finset.range nshard).filter fun t => ptr t < vc k Iin t := by
    rw [Finset.mem_filter, Finset.mem_range]
    exact ⟨hs, hact⟩
  rw [← Multiset.cons_erase (Finset.mem_val.mpr hmem), Multiset.map_cons,
    ← Finset.erase_val]

theorem heapSpecM_update_push (k nshard : ℕ) (Din : List (List ℚ))
    (Iin : List (List ℤ)) (ptr ptr' : ℕ → ℕ) (s : ℕ) (hs : s < nshard)
    (hact : ptr s < vc k Iin s) (hact' : ptr' s < vc k Iin s)
    (hagree : ∀ t, t ≠ s → ptr' t = ptr t) :
    heapSpecM k nshard Din Iin ptr'
      = (din Din s (ptr' s), s) ::ₘ
        ((((Finset.range nshard).filter fun t => ptr t < vc k Iin t).erase s).val.map
          fun t => (din Din t (ptr t), t)) := by
  rw [heapSpecM_cons k nshard Din Iin ptr' s hs hact']
  have hfil : ((Finset.range nshard).filter fun t => ptr' t < vc k Iin t)
      = (Finset.range nshard).filter fun t => ptr t < vc k Iin t := by
    apply Finset.filter_congr
    intro x _
    by_cases hxs : x = s
    · subst hxs; simp [hact, hact']
    · rw [hagree x hxs]
  rw [hfil]
  congr 1
  apply Multiset.map_congr rfl
  intro x hx
  have hxne : x ≠ s :=
    (Finset.mem_erase.mp (Finset.mem_val.mp hx)).1
  rw [hagree x hxne]

theorem heapSpecM_update_nopush (k nshard : ℕ) (Din : List (List ℚ))
    (Iin : List (List ℤ)) (ptr ptr' : ℕ → ℕ) (s : ℕ)
    (hinact' : ¬ ptr' s < vc k Iin s)
    (hagree : ∀ t, t ≠ s → ptr' t = ptr t) :
    heapSpecM k nshard Din Iin ptr'
      = ((((Finset.range nshard).filter fun t => ptr t < vc k Iin t).erase s).val.map
          fun t => (din Din t (ptr t), t)) := by
  unfold heapSpecM
  have hfil : ((Finset.range nshard).filter fun t => ptr' t < vc k Iin t)
      = ((Finset.range nshard).filter fun t => ptr t < vc k Iin t).erase s := by
    apply Finset.ext
    intro x
    rw [Finset.mem_erase, Finset.mem_filter, Finset.mem_filter]
    constructor
    · intro ⟨hxr, hxa⟩
      have hxne : x ≠ s := by
        intro hxe; rw [hxe] at hxa; exact hinact' hxa
      rw [hagree x hxne] at hxa
      exact ⟨hxne, hxr, hxa⟩
    · intro ⟨hxne, hxr, hxa⟩
      rw [← hagree x hxne] at hxa
      exact ⟨hxr, hxa⟩
  rw [hfil]
  apply Multiset.map_congr rfl
  intro x hx
  have hxne : x ≠ s :=
    (Finset.mem_erase.mp (Finset.mem_val.mp hx)).1
  rw [hagree x hxne]

theorem sum_update_succ (nshard : ℕ) (g g' : ℕ → ℕ) (s : ℕ) (hs : s < nshard)
    (hagree : ∀ t, t ≠ s → g' t = g t) (hself : g' s = g s + 1) :
    ∑ t ∈ Finset.range nshard, g' t = (∑ t ∈ Finset.range nshard, g t) + 1 := by
  have hmem : s ∈ Finset.range nshard := Finset.mem_range.mpr hs
  rw [← Finset.sum_erase_add _ g' hmem, ← Finset.sum_erase_add _ g hmem, hself]
  have hc : ∑ x ∈ (Finset.range nshard).erase s, g' x
      = ∑ x ∈ (Finset.range nshard).erase s, g x :=
    Finset.sum_congr rfl fun x hx => hagree x (Finset.ne_of_mem_erase hx)
  omega

theorem countSome_append_some (prov : List (Option (ℕ × ℕ))) (x : ℕ × ℕ) :
    countSome (prov ++ [some x]) = countSome prov + 1 := by
  simp [countSome]

theorem countSome_append_none (prov : List (Option (ℕ × ℕ))) :
    countSome (prov ++ [none]) = countSome prov := by
  simp [countSome]

theorem provPos_append_some (prov : List (Option (ℕ × ℕ))) (x : ℕ × ℕ) (s : ℕ) :
    provPos (prov ++ [some x]) s
      = provPos prov s ++ (if x.1 = s then [x.2] else []) := by
  unfold provPos
  rw [List.filterMap_append]
  congr 1
  by_cases hx : x.1 = s <;> simp [hx]

theorem provPos_append_none (prov : List (Option (ℕ × ℕ))) (s : ℕ) :
    provPos (prov ++ [none]) s = provPos prov s := by
  unfold provPos
  rw [List.filterMap_append]
  simp

/-- The per-shard sortedness hypothesis: within the consumable window of
every shard, distances are non-decreasing ("conventionally sorted
ascending by distance", spec §3). -/
def SortedRows (k nshard : ℕ) (Din : List (List ℚ)) (Iin : List (List ℤ)) : Prop :=
  ∀ s, s < nshard → ∀ q, q < vc k Iin s → ∀ p, p ≤ q → din Din s p ≤ din Din s q

/-- The order layer of the invariant, meaningful under `SortedRows`:
the consumed slots of the output are sorted, and every distance still in
the heap dominates every emitted distance. -/
def SortedInv (nshard : ℕ) (st : RowState) : Prop :=
  (∀ j₁ j₂, j₁ ≤ j₂ → j₂ < sumPtr nshard st →
    st.outD.getD j₁ 0 ≤ st.outD.getD j₂ 0) ∧
  (∀ jj, jj < sumPtr nshard st → ∀ y ∈ st.heap, st.outD.getD jj 0 ≤ y.1)

/-- When the heap is non-empty, its root is the current head of an
active shard. -/
theorem top_facts (k nshard : ℕ) (Din : List (List ℚ)) (Iin : List (List ℤ))
    (trans : List ℤ) (j : ℕ) (st : RowState) (prov : List (Option (ℕ × ℕ)))
    (hinv : RowInv k nshard Din Iin trans j st prov) (hemp : ¬ st.heap.length = 0) :
    topShard st < nshard ∧ ptrF st (topShard st) < vc k Iin (topShard st) ∧
      topDist st = din Din (topShard st) (ptrF st (topShard st)) := by
  have hnil : st.heap ≠ [] := fun h => hemp (by rw [h]; rfl)
  have hmem : getSlot st.heap 1 ∈ (st.heap : Multiset (ℚ × ℕ)) := by
    exact_mod_cast getSlot_one_mem st.heap hnil
  rw [hinv.heap_ms] at hmem
  unfold heapSpecM at hmem
  obtain ⟨s₀, hs₀, hfs₀⟩ := Multiset.mem_map.mp hmem
  have hs₀' := Finset.mem_filter.mp (Finset.mem_val.mp hs₀)
  have hs₀r : s₀ < nshard := Finset.mem_range.mp hs₀'.1
  have hsnd : topShard st = s₀ := by unfold topShard; rw [← hfs₀]
  refine ⟨?_, ?_, ?_⟩
  · rw [hsnd]; exact hs₀r
  · rw [hsnd]; exact hs₀'.2
  · unfold topDist
    rw [← hfs₀, hsnd]

/-- Sentinel branch: once the heap is empty, every shard is fully
consumed, and the step appends `(-1, neutral)` preserving the invariant. -/
theorem mergeStep_inv_empty (k nshard : ℕ) (Din : List (List ℚ))
    (Iin : List (List ℤ)) (trans : List ℤ) (j : ℕ) (st : RowState)
    (prov : List (Option (ℕ × ℕ)))
    (hinv : RowInv k nshard Din Iin trans j st prov)
    (hemp : st.heap.length = 0) :
    RowInv k nshard Din Iin trans (j + 1) (mergeStep k Din Iin trans st)
      (prov ++ [none]) := by
  have hnil : st.heap = [] := List.length_eq_zero.mp hemp
  have hstep : mergeStep k Din Iin trans st
      = { st with outD := st.outD ++ [CMin_neutral], outI := st.outI ++ [(-1 : ℤ)] } := by
    unfold mergeStep; rw [if_pos hemp]
  rw [hstep]
  have hspec0 : heapSpecM k nshard Din Iin (ptrF st) = 0 := by
    rw [← hinv.heap_ms, hnil]; rfl
  have hinact := (heapSpecM_empty_iff k nshard Din Iin (ptrF st)).mp hspec0
  have hall : ∀ t, t < nshard → ptrF st t = vc k Iin t := fun t ht =>
    le_antisymm (hinv.ptr_le t ht) (le_of_not_lt (hinact t ht))
  have hsum : sumPtr nshard st = totalValid k nshard Iin := by
    unfold sumPtr totalValid
    exact Finset.sum_congr rfl fun x hx => hall x (Finset.mem_range.mp hx)
  have hmle : totalValid k nshard Iin ≤ j := by
    have h1 := hinv.prov_count
    have h2 := hinv.prov_min
    omega
  refine ⟨hinv.ptr_len, hinv.ptr_le, hinv.heap_ms, hinv.heap_ok, ?_, ?_, ?_,
    ?_, ?_, ?_, ?_, ?_⟩
  · simp [hinv.outD_len]
  · simp [hinv.outI_len]
  · simp [hinv.prov_len]
  · intro jj hjj
    rcases Nat.lt_or_ge jj j with hlt | hge
    · have hpg : (prov ++ [none]).getD jj none = prov.getD jj none :=
        List.getD_append _ _ _ _ (by rw [hinv.prov_len]; exact hlt)
      have hdg : (st.outD ++ [CMin_neutral]).getD jj 0 = st.outD.getD jj 0 :=
        List.getD_append _ _ _ _ (by rw [hinv.outD_len]; exact hlt)
      have hig : (st.outI ++ [(-1 : ℤ)]).getD jj (-1) = st.outI.getD jj (-1) :=
        List.getD_append _ _ _ _ (by rw [hinv.outI_len]; exact hlt)
      rw [hpg, hdg, hig]
      exact hinv.prov_out jj hlt
    · have hjj' : jj = j := by omega
      rw [hjj']
      have hpg : (prov ++ [none]).getD j none = none := by
        have := getD_concat_length (none : Option (ℕ × ℕ)) prov none
        rwa [hinv.prov_len] at this
      rw [hpg]
      refine ⟨?_, ?_⟩
      · have := getD_concat_length (-1 : ℤ) st.outI (-1)
        rwa [hinv.outI_len] at this
      · have := getD_concat_length (0 : ℚ) st.outD CMin_neutral
        rwa [hinv.outD_len] at this
  · intro t
    rw [provPos_append_none]
    exact hinv.prov_shard t
  · rw [countSome_append_none]
    exact hinv.prov_count
  · rw [countSome_append_none]
    have := hinv.prov_min
    omega
  · intro jj hjj
    rw [countSome_append_none]
    rcases Nat.lt_or_ge jj j with hlt | hge
    · have hpg : (prov ++ [none]).getD jj none = prov.getD jj none :=
        List.getD_append _ _ _ _ (by rw [hinv.prov_len]; exact hlt)
      rw [hpg]
      exact hinv.prov_pref jj hlt
    · have hjj' : jj = j := by omega
      rw [hjj']
      have hpg : (prov ++ [none]).getD j none = none := by
        have := getD_concat_length (none : Option (ℕ × ℕ)) prov none
        rwa [hinv.prov_len] at this
      rw [hpg]
      have := hinv.prov_min
      simp only [Option.isSome_none, Bool.false_eq_true, false_iff]
      omega

/-- Pop branch: the heap root (the head of an active shard) is emitted,
its shard's pointer advances, and the shard's next candidate is pushed
exactly when it is still consumable. -/
theorem mergeStep_inv_pop (k nshard : ℕ) (Din : List (List ℚ))
    (Iin : List (List ℤ)) (trans : List ℤ) (j : ℕ) (st : RowState)
    (prov : List (Option (ℕ × ℕ)))
    (hinv : RowInv k nshard Din Iin trans j st prov)
    (hemp : ¬ st.heap.length = 0) :
    RowInv k nshard Din Iin trans (j + 1) (mergeStep k Din Iin trans st)
      (prov ++ [some (topShard st, ptrF st (topShard st))]) := by
  have hnil : st.heap ≠ [] := fun h => hemp (by rw [h]; rfl)
  obtain ⟨hs, hact, hdin⟩ := top_facts k nshard Din Iin trans j st prov hinv hemp
  have hpp : topPtr st = ptrF st (topShard st) := rfl
  have hslen : topShard st < st.ptr.length := by rw [hinv.ptr_len]; exact hs
  have htoppair : getSlot st.heap 1
      = (din Din (topShard st) (ptrF st (topShard st)), topShard st) := by
    rw [← hdin]; rfl
  have hsumlt : sumPtr nshard st < totalValid k nshard Iin := by
    unfold sumPtr totalValid
    exact Finset.sum_lt_sum (fun i hi => hinv.ptr_le i (Finset.mem_range.mp hi))
      ⟨topShard st, Finset.mem_range.mpr hs, hact⟩
  have hcj : countSome prov = j := by
    have h1 := hinv.prov_count
    have h2 := hinv.prov_min
    omega
  have hjm : j < totalValid k nshard Iin := by
    have h1 := hinv.prov_count
    omega
  have hpop_ms : (heap_pop st.heap : Multiset (ℚ × ℕ))
      = ((((Finset.range nshard).filter fun t => ptrF st t < vc k Iin t).erase
          (topShard st)).val.map fun t => (din Din t (ptrF st t), t)) := by
    have hcoe := heap_pop_coe st.heap hnil
    rw [htoppair, hinv.heap_ms,
      heapSpecM_cons k nshard Din Iin (ptrF st) (topShard st) hs hact] at hcoe
    exact ((Multiset.cons_inj_right _).mp hcoe).symm
  have hagree : ∀ t, t ≠ topShard st →
      (st.ptr.set (topShard st) (ptrF st (topShard st) + 1)).getD t 0 = ptrF st t :=
    fun t ht => getD_set_of_ne 0 st.ptr (topShard st) t (fun h => ht h.symm) _
  have hself : (st.ptr.set (topShard st) (ptrF st (topShard st) + 1)).getD (topShard st) 0
      = ptrF st (topShard st) + 1 :=
    getD_set_self 0 st.ptr (topShard st) hslen _
  by_cases hc : topPtr st + 1 < k ∧ 0 ≤ iin Iin (topShard st) (topPtr st + 1)
  · -- push case
    have hact' : ptrF st (topShard st) + 1 < vc k Iin (topShard st) :=
      validCount_succ_lt (fun p => iin Iin (topShard st) p) k
        (ptrF st (topShard st)) hact hc.1 hc.2
    have hstep : mergeStep k Din Iin trans st
        = { heap := heap_push (heap_pop st.heap)
              (din Din (topShard st) (ptrF st (topShard st) + 1)) (topShard st),
            ptr := st.ptr.set (topShard st) (ptrF st (topShard st) + 1),
            outD := st.outD ++ [din Din (topShard st) (ptrF st (topShard st))],
            outI := st.outI ++ [iin Iin (topShard st) (ptrF st (topShard st))
              + trans.getD (topShard st) 0] } := by
      unfold mergeStep
      rw [if_neg hemp, if_pos hc, hpp, hdin]
    rw [hstep]
    refine ⟨?_, ?_, ?_, ?_, ?_, ?_, ?_, ?_, ?_, ?_, ?_, ?_⟩
    · show (st.ptr.set (topShard st) (ptrF st (topShard st) + 1)).length = nshard
      rw [List.length_set]; exact hinv.ptr_len
    · intro t ht
      show (st.ptr.set (topShard st) (ptrF st (topShard st) + 1)).getD t 0 ≤ vc k Iin t
      by_cases htt : t = topShard st
      · rw [htt, hself]; exact hact'.le
      · rw [hagree t htt]; exact hinv.ptr_le t ht
    · show ((heap_push (heap_pop st.heap)
          (din Din (topShard st) (ptrF st (topShard st) + 1)) (topShard st) : List (ℚ × ℕ))
          : Multiset (ℚ × ℕ))
        = heapSpecM k nshard Din Iin
            (fun t => (st.ptr.set (topShard st) (ptrF st (topShard st) + 1)).getD t 0)
      rw [heap_push_coe, hpop_ms,
        heapSpecM_update_push k nshard Din Iin (ptrF st)
          (fun t => (st.ptr.set (topShard st) (ptrF st (topShard st) + 1)).getD t 0)
          (topShard st) hs hact (by simp only [hself]; exact hact') hagree, hself]
    · show IsHeap (heap_push (heap_pop st.heap)
        (din Din (topShard st) (ptrF st (topShard st) + 1)) (topShard st))
      exact heap_push_isHeap _ _ _ (heap_pop_isHeap st.heap hnil hinv.heap_ok)
    · show (st.outD ++ [din Din (topShard st) (ptrF st (topShard st))]).length = j + 1
      simp [hinv.outD_len]
    · show (st.outI ++ [iin Iin (topShard st) (ptrF st (topShard st))
        + trans.getD (topShard st) 0]).length = j + 1
      simp [hinv.outI_len]
    · simp [hinv.prov_len]
    · intro jj hjj
      rcases Nat.lt_or_ge jj j with hlt | hge
      · have hpg : (prov ++ [some (topShard st, ptrF st (topShard st))]).getD jj none
            = prov.getD jj none :=
          List.getD_append _ _ _ _ (by rw [hinv.prov_len]; exact hlt)
        have hdg : (st.outD ++ [din Din (topShard st) (ptrF st (topShard st))]).getD jj 0
            = st.outD.getD jj 0 :=
          List.getD_append _ _ _ _ (by rw [hinv.outD_len]; exact hlt)
        have hig : (st.outI ++ [iin Iin (topShard st) (ptrF st (topShard st))
              + trans.getD (topShard st) 0]).getD jj (-1) = st.outI.getD jj (-1) :=
          List.getD_append _ _ _ _ (by rw [hinv.outI_len]; exact hlt)
        dsimp only
        rw [hpg, hdg, hig]
        exact hinv.prov_out jj hlt
      · have hjj' : jj = j := by omega
        rw [hjj']
        have hpg : (prov ++ [some (topShard st, ptrF st (topShard st))]).getD j none
            = some (topShard st, ptrF st (topShard st)) := by
          have := getD_concat_length (none : Option (ℕ × ℕ)) prov
            (some (topShard st, ptrF st (topShard st)))
          rwa [hinv.prov_len] at this
        dsimp only
        rw [hpg]
        refine ⟨hs, hact, ?_, ?_⟩
        · have := getD_concat_length (0 : ℚ) st.outD
            (din Din (topShard st) (ptrF st (topShard st)))
          rwa [hinv.outD_len] at this
        · have := getD_concat_length (-1 : ℤ) st.outI
            (iin Iin (topShard st) (ptrF st (topShard st)) + trans.getD (topShard st) 0)
          rwa [hinv.outI_len] at this
    · intro t
      show provPos (prov ++ [some (topShard st, ptrF st (topShard st))]) t
        = List.range ((st.ptr.set (topShard st) (ptrF st (topShard st) + 1)).getD t 0)
      rw [provPos_append_some]
      by_cases htt : t = topShard st
      · rw [htt, hself]
        simp only [if_pos rfl]
        rw [hinv.prov_shard (topShard st)]
        exact (List.range_succ _).symm
      · rw [hagree t htt]
        rw [if_neg (fun h => htt h.symm)]
        rw [List.append_nil]
        exact hinv.prov_shard t
    · show countSome (prov ++ [some (topShard st, ptrF st (topShard st))])
        = ∑ t ∈ Finset.range nshard,
            (st.ptr.set (topShard st) (ptrF st (topShard st) + 1)).getD t 0
      rw [countSome_append_some, hinv.prov_count]
      exact (sum_update_succ nshard (ptrF st)
        (fun t => (st.ptr.set (topShard st) (ptrF st (topShard st) + 1)).getD t 0)
        (topShard st) hs hagree hself).symm
    · rw [countSome_append_some, hcj]
      omega
    · intro jj hjj
      rw [countSome_append_some, hcj]
      rcases Nat.lt_or_ge jj j with hlt | hge
      · have hpg : (prov ++ [some (topShard st, ptrF st (topShard st))]).getD jj none
            = prov.getD jj none :=
          List.getD_append _ _ _ _ (by rw [hinv.prov_len]; exact hlt)
        rw [hpg]
        have hold := hinv.prov_pref jj hlt
        rw [hcj] at hold
        constructor
        · intro _; omega
        · intro _; exact hold.mpr hlt
      · have hjj' : jj = j := by omega
        rw [hjj']
        have hpg : (prov ++ [some (topShard st, ptrF st (topShard st))]).getD j none
            = some (topShard st, ptrF st (topShard st)) := by
          have := getD_concat_length (none : Option (ℕ × ℕ)) prov
            (some (topShard st, ptrF st (topShard st)))
          rwa [hinv.prov_len] at this
        rw [hpg]
        simp
  · -- no-push case: the shard is exhausted (or position k reached)
    have hvcle : vc k Iin (topShard st) ≤ ptrF st (topShard st) + 1 :=
      validCount_succ_ge (fun p => iin Iin (topShard st) p) k (ptrF st (topShard st)) hc
    have hstep : mergeStep k Din Iin trans st
        = { heap := heap_pop st.heap,
            ptr := st.ptr.set (topShard st) (ptrF st (topShard st) + 1),
            outD := st.outD ++ [din Din (topShard st) (ptrF st (topShard st))],
            outI := st.outI ++ [iin Iin (topShard st) (ptrF st (topShard st))
              + trans.getD (topShard st) 0] } := by
      unfold mergeStep
      rw [if_neg hemp, if_neg hc, hpp, hdin]
    rw [hstep]
    refine ⟨?_, ?_, ?_, ?_, ?_, ?_, ?_, ?_, ?_, ?_, ?_, ?_⟩
    · show (st.ptr.set (topShard st) (ptrF st (topShard st) + 1)).length = nshard
      rw [List.length_set]; exact hinv.ptr_len
    · intro t ht
      show (st.ptr.set (topShard st) (ptrF st (topShard st) + 1)).getD t 0 ≤ vc k Iin t
      by_cases htt : t = topShard st
      · rw [htt, hself]; omega
      · rw [hagree t htt]; exact hinv.ptr_le t ht
    · show ((heap_pop st.heap : List (ℚ × ℕ)) : Multiset (ℚ × ℕ))
        = heapSpecM k nshard Din Iin
            (fun t => (st.ptr.set (topShard st) (ptrF st (topShard st) + 1)).getD t 0)
      rw [hpop_ms]
      exact (heapSpecM_update_nopush k nshard Din Iin (ptrF st)
        (fun t => (st.ptr.set (topShard st) (ptrF st (topShard st) + 1)).getD t 0)
        (topShard st) (by simp only [hself]; omega) hagree).symm
    · show IsHeap (heap_pop st.heap)
      exact heap_pop_isHeap st.heap hnil hinv.heap_ok
    · show (st.outD ++ [din Din (topShard st) (ptrF st (topShard st))]).length = j + 1
      simp [hinv.outD_len]
    · show (st.outI ++ [iin Iin (topShard st) (ptrF st (topShard st))
        + trans.getD (topShard st) 0]).length = j + 1
      simp [hinv.outI_len]
    · simp [hinv.prov_len]
    · intro jj hjj
      rcases Nat.lt_or_ge jj j with hlt | hge
      · have hpg : (prov ++ [some (topShard st, ptrF st (topShard st))]).getD jj none
            = prov.getD jj none :=
          List.getD_append _ _ _ _ (by rw [hinv.prov_len]; exact hlt)
        have hdg : (st.outD ++ [din Din (topShard st) (ptrF st (topShard st))]).getD jj 0
            = st.outD.getD jj 0 :=
          List.getD_append _ _ _ _ (by rw [hinv.outD_len]; exact hlt)
        have hig : (st.outI ++ [iin Iin (topShard st) (ptrF st (topShard st))
              + trans.getD (topShard st) 0]).getD jj (-1) = st.outI.getD jj (-1) :=
          List.getD_append _ _ _ _ (by rw [hinv.outI_len]; exact hlt)
        dsimp only
        rw [hpg, hdg, hig]
        exact hinv.prov_out jj hlt
      · have hjj' : jj = j := by omega
        rw [hjj']
        have hpg : (prov ++ [some (topShard st, ptrF st (topShard st))]).getD j none
            = some (topShard st, ptrF st (topShard st)) := by
          have := getD_concat_length (none : Option (ℕ × ℕ)) prov
            (some (topShard st, ptrF st (topShard st)))
          rwa [hinv.prov_len] at this
        dsimp only
        rw [hpg]
        refine ⟨hs, hact, ?_, ?_⟩
        · have := getD_concat_length (0 : ℚ) st.outD
            (din Din (topShard st) (ptrF st (topShard st)))
          rwa [hinv.outD_len] at this
        · have := getD_concat_length (-1 : ℤ) st.outI
            (iin Iin (topShard st) (ptrF st (topShard st)) + trans.getD (topShard st) 0)
          rwa [hinv.outI_len] at this
    · intro t
      show provPos (prov ++ [some (topShard st, ptrF st (topShard st))]) t
        = List.range ((st.ptr.set (topShard st) (ptrF st (topShard st) + 1)).getD t 0)
      rw [provPos_append_some]
      by_cases htt : t = topShard st
      · rw [htt, hself]
        simp only [if_pos rfl]
        rw [hinv.prov_shard (topShard st)]
        exact (List.range_succ _).symm
      · rw [hagree t htt]
        rw [if_neg (fun h => htt h.symm)]
        rw [List.append_nil]
        exact hinv.prov_shard t
    · show countSome (prov ++ [some (topShard st, ptrF st (topShard st))])
        = ∑ t ∈ Finset.range nshard,
            (st.ptr.set (topShard st) (ptrF st (topShard st) + 1)).getD t 0
      rw [countSome_append_some, hinv.prov_count]
      exact (sum_update_succ nshard (ptrF st)
        (fun t => (st.ptr.set (topShard st) (ptrF st (topShard st) + 1)).getD t 0)
        (topShard st) hs hagree hself).symm
    · rw [countSome_append_some, hcj]
      omega
    · intro jj hjj
      rw [countSome_append_some, hcj]
      rcases Nat.lt_or_ge jj j with hlt | hge
      · have hpg : (prov ++ [some (topShard st, ptrF st (topShard st))]).getD jj none
            = prov.getD jj none :=
          List.getD_append _ _ _ _ (by rw [hinv.prov_len]; exact hlt)
        rw [hpg]
        have hold := hinv.prov_pref jj hlt
        rw [hcj] at hold
        constructor
        · intro _; omega
        · intro _; exact hold.mpr hlt
      · have hjj' : jj = j := by omega
        rw [hjj']
        have hpg : (prov ++ [some (topShard st, ptrF st (topShard st))]).getD j none
            = some (topShard st, ptrF st (topShard st)) := by
          have := getD_concat_length (none : Option (ℕ × ℕ)) prov
            (some (topShard st, ptrF st (topShard st)))
          rwa [hinv.prov_len] at this
        rw [hpg]
        simp

theorem mergeStep_inv (k nshard : ℕ) (Din : List (List ℚ)) (Iin : List (List ℤ))
    (trans : List ℤ) (j : ℕ) (st : RowState) (prov : List (Option (ℕ × ℕ)))
    (hinv : RowInv k nshard Din Iin trans j st prov) :
    ∃ prov', RowInv k nshard Din Iin trans (j + 1)
      (mergeStep k Din Iin trans st) prov' := by
  by_cases hemp : st.heap.length = 0
  · exact ⟨prov ++ [none],
      mergeStep_inv_empty k nshard Din Iin trans j st prov hinv hemp⟩
  · exact ⟨prov ++ [some (topShard st, ptrF st (topShard st))],
      mergeStep_inv_pop k nshard Din Iin trans j st prov hinv hemp⟩

theorem mergeRun_inv (k nshard : ℕ) (Din : List (List ℚ)) (Iin : List (List ℤ))
    (trans : List ℤ) :
    ∀ (m j : ℕ) (st : RowState) (prov : List (Option (ℕ × ℕ))),
      RowInv k nshard Din Iin trans j st prov →
      ∃ prov', RowInv k nshard Din Iin trans (j + m)
        (mergeRun k Din Iin trans m st) prov' := by
  intro m
  induction m with
  | zero => exact fun j st prov h => ⟨prov, h⟩
  | succ n ih =>
    intro j st prov h
    obtain ⟨prov1, h1⟩ := mergeStep_inv k nshard Din Iin trans j st prov h
    obtain ⟨prov2, h2⟩ := ih (j + 1) (mergeStep k Din Iin trans st) prov1 h1
    refine ⟨prov2, ?_⟩
    have harith : j + 1 + n = j + (n + 1) := by omega
    rw [harith] at h2
    exact h2

/-! ## The seed loop establishes the invariant -/

theorem getD_replicate_dd {α : Type} (a : α) :
    ∀ (n s : ℕ), (List.replicate n a).getD s a = a := by
  intro n
  induction n with
  | zero => intro s; cases s <;> rfl
  | succ m ih =>
    intro s
    cases s with
    | zero => rfl
    | succ t => exact ih t

theorem seedHeap_succ (Din : List (List ℚ)) (Iin : List (List ℤ)) (t : ℕ) :
    seedHeap Din Iin (t + 1)
      = if 0 ≤ iin Iin t 0 then heap_push (seedHeap Din Iin t) (din Din t 0) t
        else seedHeap Din Iin t := by
  unfold seedHeap
  rw [List.range_succ, List.foldl_append]
  rfl

theorem seedHeap_ms (Din : List (List ℚ)) (Iin : List (List ℤ)) :
    ∀ t, ((seedHeap Din Iin t : List (ℚ × ℕ)) : Multiset (ℚ × ℕ))
      = (((Finset.range t).filter fun s => 0 ≤ iin Iin s 0).val.map
          fun s => (din Din s 0, s)) := by
  intro t
  induction t with
  | zero => rfl
  | succ n ih =>
    rw [seedHeap_succ, Finset.range_succ, Finset.filter_insert]
    by_cases h0 : 0 ≤ iin Iin n 0
    · rw [if_pos h0, if_pos h0, heap_push_coe, ih]
      have hnot : n ∉ (Finset.range n).filter fun s => 0 ≤ iin Iin s 0 := by
        intro hmem
        exact absurd (Finset.mem_range.mp (Finset.mem_filter.mp hmem).1) (by omega)
      rw [Finset.insert_val, Multiset.ndinsert_of_not_mem hnot, Multiset.map_cons]
    · rw [if_neg h0, if_neg h0, ih]

theorem seedHeap_isHeap (Din : List (List ℚ)) (Iin : List (List ℤ)) :
    ∀ t, IsHeap (seedHeap Din Iin t) := by
  intro t
  induction t with
  | zero =>
    intro j hj2 hj0
    simp [seedHeap] at hj0
    omega
  | succ n ih =>
    rw [seedHeap_succ]
    by_cases h0 : 0 ≤ iin Iin n 0
    · rw [if_pos h0]
      exact heap_push_isHeap _ _ _ ih
    · rw [if_neg h0]
      exact ih

theorem initState_inv (k nshard : ℕ) (Din : List (List ℚ)) (Iin : List (List ℤ))
    (trans : List ℤ) (hk : 0 < k) :
    RowInv k nshard Din Iin trans 0 (initState nshard Din Iin) [] := by
  have hptr0 : ∀ s, ptrF (initState nshard Din Iin) s = 0 := fun s =>
    getD_replicate_dd 0 nshard s
  refine ⟨?_, ?_, ?_, ?_, rfl, rfl, rfl, ?_, ?_, ?_, ?_, ?_⟩
  · exact List.length_replicate nshard 0
  · intro s _
    rw [hptr0 s]
    exact Nat.zero_le _
  · show ((seedHeap Din Iin nshard : List (ℚ × ℕ)) : Multiset (ℚ × ℕ))
      = heapSpecM k nshard Din Iin (ptrF (initState nshard Din Iin))
    rw [seedHeap_ms]
    unfold heapSpecM
    have hfil : ((Finset.range nshard).filter
          fun s => ptrF (initState nshard Din Iin) s < vc k Iin s)
        = (Finset.range nshard).filter fun s => 0 ≤ iin Iin s 0 := by
      apply Finset.filter_congr
      intro x _
      rw [hptr0 x]
      exact validCount_pos (fun p => iin Iin x p) k hk
    rw [hfil]
    apply Multiset.map_congr rfl
    intro x _
    rw [hptr0 x]
  · exact seedHeap_isHeap Din Iin nshard
  · intro jj hjj; omega
  · intro s
    show provPos [] s = List.range (ptrF (initState nshard Din Iin) s)
    rw [hptr0 s]
    rfl
  · show countSome [] = sumPtr nshard (initState nshard Din Iin)
    unfold sumPtr
    rw [Finset.sum_congr rfl fun x _ => hptr0 x]
    simp [countSome]
  · simp [countSome]
  · intro jj hjj; omega

/-! ## The order layer under sorted inputs -/

theorem mergeStep_sorted (k nshard : ℕ) (Din : List (List ℚ)) (Iin : List (List ℤ))
    (trans : List ℤ) (j : ℕ) (st : RowState) (prov : List (Option (ℕ × ℕ)))
    (hsort : SortedRows k nshard Din Iin)
    (hinv : RowInv k nshard Din Iin trans j st prov)
    (hso : SortedInv nshard st) :
    SortedInv nshard (mergeStep k Din Iin trans st) := by
  have hsum_le : sumPtr nshard st ≤ j := by
    have h1 := hinv.prov_count
    have h2 := hinv.prov_min
    omega
  by_cases hemp : st.heap.length = 0
  · have hstep : mergeStep k Din Iin trans st
        = { st with outD := st.outD ++ [CMin_neutral], outI := st.outI ++ [(-1 : ℤ)] } := by
      unfold mergeStep; rw [if_pos hemp]
    rw [hstep]
    constructor
    · intro j₁ j₂ h12 hj2
      have hj2' : j₂ < sumPtr nshard st := hj2
      have hg1 : (st.outD ++ [CMin_neutral]).getD j₁ 0 = st.outD.getD j₁ 0 :=
        List.getD_append _ _ _ _ (by rw [hinv.outD_len]; omega)
      have hg2 : (st.outD ++ [CMin_neutral]).getD j₂ 0 = st.outD.getD j₂ 0 :=
        List.getD_append _ _ _ _ (by rw [hinv.outD_len]; omega)
      show (st.outD ++ [CMin_neutral]).getD j₁ 0 ≤ (st.outD ++ [CMin_neutral]).getD j₂ 0
      rw [hg1, hg2]
      exact hso.1 j₁ j₂ h12 hj2'
    · intro jj hjj y hy
      have hjj' : jj < sumPtr nshard st := hjj
      have hg : (st.outD ++ [CMin_neutral]).getD jj 0 = st.outD.getD jj 0 :=
        List.getD_append _ _ _ _ (by rw [hinv.outD_len]; omega)
      show (st.outD ++ [CMin_neutral]).getD jj 0 ≤ y.1
      rw [hg]
      exact hso.2 jj hjj' y hy
  · have hnil : st.heap ≠ [] := fun h => hemp (by rw [h]; rfl)
    obtain ⟨hs, hact, hdin⟩ := top_facts k nshard Din Iin trans j st prov hinv hemp
    have hpp : topPtr st = ptrF st (topShard st) := rfl
    have hslen : topShard st < st.ptr.length := by rw [hinv.ptr_len]; exact hs
    have htoppair : getSlot st.heap 1
        = (din Din (topShard st) (ptrF st (topShard st)), topShard st) := by
      rw [← hdin]; rfl
    have hcj : countSome prov = j := by
      have h1 := hinv.prov_count
      have h2 := hinv.prov_min
      have hsumlt : sumPtr nshard st < totalValid k nshard Iin := by
        unfold sumPtr totalValid
        exact Finset.sum_lt_sum (fun i hi => hinv.ptr_le i (Finset.mem_range.mp hi))
          ⟨topShard st, Finset.mem_range.mpr hs, hact⟩
      omega
    have hsumj : sumPtr nshard st = j := by
      have h1 := hinv.prov_count
      omega
    have hagree : ∀ t, t ≠ topShard st →
        (st.ptr.set (topShard st) (ptrF st (topShard st) + 1)).getD t 0 = ptrF st t :=
      fun t ht => getD_set_of_ne 0 st.ptr (topShard st) t (fun h => ht h.symm) _
    have hself : (st.ptr.set (topShard st) (ptrF st (topShard st) + 1)).getD (topShard st) 0
        = ptrF st (topShard st) + 1 :=
      getD_set_self 0 st.ptr (topShard st) hslen _
    have hsump1 : (∑ t ∈ Finset.range nshard,
          (st.ptr.set (topShard st) (ptrF st (topShard st) + 1)).getD t 0)
        = sumPtr nshard st + 1 := by
      unfold sumPtr
      exact sum_update_succ nshard (ptrF st)
        (fun t => (st.ptr.set (topShard st) (ptrF st (topShard st) + 1)).getD t 0)
        (topShard st) hs hagree hself
    have hpopmem : ∀ y : ℚ × ℕ, y ∈ heap_pop st.heap → y ∈ st.heap := by
      intro y hy
      exact (heap_pop_perm st.heap hnil).mem_iff.mpr (List.mem_cons_of_mem _ hy)
    have hroot : ∀ y : ℚ × ℕ, y ∈ st.heap →
        din Din (topShard st) (ptrF st (topShard st)) ≤ y.1 := by
      intro y hy
      have := isHeap_root_le_mem st.heap hinv.heap_ok y hy
      rwa [htoppair] at this
    -- common facts for the two output obligations, with `newD` the appended slot
    have houtD : ∀ (newHeap : List (ℚ × ℕ)),
        (∀ y ∈ newHeap, y ∈ heap_pop st.heap ∨
          y = (din Din (topShard st) (ptrF st (topShard st) + 1), topShard st)) →
        (ptrF st (topShard st) + 1 < vc k Iin (topShard st) ∨
          (∀ y ∈ newHeap, y ∈ heap_pop st.heap)) →
        SortedInv nshard
          { heap := newHeap,
            ptr := st.ptr.set (topShard st) (ptrF st (topShard st) + 1),
            outD := st.outD ++ [din Din (topShard st) (ptrF st (topShard st))],
            outI := st.outI ++ [iin Iin (topShard st) (ptrF st (topShard st))
              + trans.getD (topShard st) 0] } := by
      intro newHeap hmem hpush
      have hnext : ∀ y ∈ newHeap, din Din (topShard st) (ptrF st (topShard st)) ≤ y.1 := by
        intro y hy
        rcases hpush with hvc | hall
        · rcases hmem y hy with hold | hnew
          · exact hroot y (hpopmem y hold)
          · rw [hnew]
            exact hsort (topShard st) hs (ptrF st (topShard st) + 1) hvc
              (ptrF st (topShard st)) (by omega)
        · exact hroot y (hpopmem y (hall y hy))
      constructor
      · intro j₁ j₂ h12 hj2
        have hj2' : j₂ < sumPtr nshard st + 1 := by
          have : j₂ < ∑ t ∈ Finset.range nshard,
              (st.ptr.set (topShard st) (ptrF st (topShard st) + 1)).getD t 0 := hj2
          omega
        have hg1 : ∀ jjj, jjj < j →
            (st.outD ++ [din Din (topShard st) (ptrF st (topShard st))]).getD jjj 0
              = st.outD.getD jjj 0 := fun jjj hjjj =>
          List.getD_append _ _ _ _ (by rw [hinv.outD_len]; omega)
        have hgj : (st.outD ++ [din Din (topShard st) (ptrF st (topShard st))]).getD j 0
            = din Din (topShard st) (ptrF st (topShard st)) := by
          have := getD_concat_length (0 : ℚ) st.outD
            (din Din (topShard st) (ptrF st (topShard st)))
          rwa [hinv.outD_len] at this
        show (st.outD ++ [din Din (topShard st) (ptrF st (topShard st))]).getD j₁ 0
          ≤ (st.outD ++ [din Din (topShard st) (ptrF st (topShard st))]).getD j₂ 0
        rcases Nat.lt_or_ge j₂ j with hj2j | hj2j
        · rw [hg1 j₁ (by omega), hg1 j₂ hj2j]
          exact hso.1 j₁ j₂ h12 (by omega)
        · have hj2eq : j₂ = j := by omega
          rw [hj2eq, hgj]
          rcases Nat.lt_or_ge j₁ j with hj1j | hj1j
          · rw [hg1 j₁ hj1j]
            have := hso.2 j₁ (by omega) (getSlot st.heap 1)
              (getSlot_one_mem st.heap hnil)
            rwa [htoppair] at this
          · have hj1eq : j₁ = j := by omega
            rw [hj1eq, hgj]
      · intro jj hjj y hy
        have hjj' : jj < sumPtr nshard st + 1 := by
          have : jj < ∑ t ∈ Finset.range nshard,
              (st.ptr.set (topShard st) (ptrF st (topShard st) + 1)).getD t 0 := hjj
          omega
        show (st.outD ++ [din Din (topShard st) (ptrF st (topShard st))]).getD jj 0 ≤ y.1
        rcases Nat.lt_or_ge jj j with hjjj | hjjj
        · have hg : (st.outD ++ [din Din (topShard st) (ptrF st (topShard st))]).getD jj 0
              = st.outD.getD jj 0 :=
            List.getD_append _ _ _ _ (by rw [hinv.outD_len]; omega)
          rw [hg]
          rcases hpush with hvc | hall
          · rcases hmem y hy with hold | hnew
            · exact hso.2 jj (by omega) y (hpopmem y hold)
            · rw [hnew]
              have h1 := hso.2 jj (by omega) (getSlot st.heap 1)
                (getSlot_one_mem st.heap hnil)
              rw [htoppair] at h1
              exact le_trans h1 (hsort (topShard st) hs (ptrF st (topShard st) + 1)
                hvc (ptrF st (topShard st)) (by omega))
          · exact hso.2 jj (by omega) y (hpopmem y (hall y hy))
        · have hjeq : jj = j := by omega
          have hgj : (st.outD ++ [din Din (topShard st) (ptrF st (topShard st))]).getD j 0
              = din Din (topShard st) (ptrF st (topShard st)) := by
            have := getD_concat_length (0 : ℚ) st.outD
              (din Din (topShard st) (ptrF st (topShard st)))
            rwa [hinv.outD_len] at this
          rw [hjeq, hgj]
          exact hnext y hy
    by_cases hc : topPtr st + 1 < k ∧ 0 ≤ iin Iin (topShard st) (topPtr st + 1)
    · have hact' : ptrF st (topShard st) + 1 < vc k Iin (topShard st) :=
        validCount_succ_lt (fun p => iin Iin (topShard st) p) k
          (ptrF st (topShard st)) hact hc.1 hc.2
      have hstep : mergeStep k Din Iin trans st
          = { heap := heap_push (heap_pop st.heap)
                (din Din (topShard st) (ptrF st (topShard st) + 1)) (topShard st),
              ptr := st.ptr.set (topShard st) (ptrF st (topShard st) + 1),
              outD := st.outD ++ [din Din (topShard st) (ptrF st (topShard st))],
              outI := st.outI ++ [iin Iin (topShard st) (ptrF st (topShard st))
                + trans.getD (topShard st) 0] } := by
        unfold mergeStep
        rw [if_neg hemp, if_pos hc, hpp, hdin]
      rw [hstep]
      refine houtD _ ?_ (Or.inl hact')
      intro y hy
      have : y ∈ ((din Din (topShard st) (ptrF st (topShard st) + 1), topShard st)
          :: heap_pop st.heap) :=
        (heap_push_perm (heap_pop st.heap) _ _).mem_iff.mp hy
      rcases List.mem_cons.mp this with hnew | hold
      · exact Or.inr hnew
      · exact Or.inl hold
    · have hstep : mergeStep k Din Iin trans st
          = { heap := heap_pop st.heap,
              ptr := st.ptr.set (topShard st) (ptrF st (topShard st) + 1),
              outD := st.outD ++ [din Din (topShard st) (ptrF st (topShard st))],
              outI := st.outI ++ [iin Iin (topShard st) (ptrF st (topShard st))
                + trans.getD (topShard st) 0] } := by
        unfold mergeStep
        rw [if_neg hemp, if_neg hc, hpp, hdin]
      rw [hstep]
      exact houtD _ (fun y hy => Or.inl hy) (Or.inr fun y hy => hy)

theorem initState_sorted (nshard : ℕ) (Din : List (List ℚ)) (Iin : List (List ℤ)) :
    SortedInv nshard (initState nshard Din Iin) := by
  have hptr0 : ∀ s, ptrF (initState nshard Din Iin) s = 0 := fun s =>
    getD_replicate_dd 0 nshard s
  have hsum0 : sumPtr nshard (initState nshard Din Iin) = 0 := by
    unfold sumPtr
    rw [Finset.sum_congr rfl fun x _ => hptr0 x]
    simp
  constructor
  · intro j₁ j₂ _ hj2
    rw [hsum0] at hj2
    omega
  · intro jj hjj
    rw [hsum0] at hjj
    omega

theorem mergeRun_sorted (k nshard : ℕ) (Din : List (List ℚ)) (Iin : List (List ℤ))
    (trans : List ℤ) (hsort : SortedRows k nshard Din Iin) :
    ∀ (m j : ℕ) (st : RowState) (prov : List (Option (ℕ × ℕ))),
      RowInv k nshard Din Iin trans j st prov → SortedInv nshard st →
      SortedInv nshard (mergeRun k Din Iin trans m st) := by
  intro m
  induction m with
  | zero => exact fun j st prov _ hso => hso
  | succ n ih =>
    intro j st prov hinv hso
    obtain ⟨prov1, h1⟩ := mergeStep_inv k nshard Din Iin trans j st prov hinv
    exact ih (j + 1) (mergeStep k Din Iin trans st) prov1 h1
      (mergeStep_sorted k nshard Din Iin trans j st prov hsort hinv hso)

/-- The full-loop invariant of one query row of `merge_tables`. -/
theorem merge_row_inv (k nshard : ℕ) (Din : List (List ℚ)) (Iin : List (List ℤ))
    (trans : List ℤ) (hk : 0 < k) :
    ∃ prov, RowInv k nshard Din Iin trans k
      (mergeRun k Din Iin trans k (initState nshard Din Iin)) prov := by
  have h0 := initState_inv k nshard Din Iin trans hk
  obtain ⟨prov, h⟩ := mergeRun_inv k nshard Din Iin trans k 0
    (initState nshard Din Iin) [] h0
  rw [Nat.zero_add] at h
  exact ⟨prov, h⟩

/-! ## Facts about a finished merge row -/

/-- What one finished row of `merge_tables` looks like, without any
sortedness assumption: every slot is either a sentinel `(-1, neutral)` or
carries a candidate of some shard window with the translated label; the
consumed slots form a prefix of length `min k m`, and the consumed
positions of each shard form a left-to-right prefix of its window, whose
next unconsumed head (if any) is still in the heap. -/
theorem row_final (k nshard : ℕ) (Din : List (List ℚ)) (Iin : List (List ℤ))
    (trans : List ℤ) (hk : 0 < k) :
    ∃ prov : List (Option (ℕ × ℕ)),
      (merge_tables_row k nshard Din Iin trans).1.length = k ∧
      (merge_tables_row k nshard Din Iin trans).2.length = k ∧
      prov.length = k ∧
      countSome prov = min k (totalValid k nshard Iin) ∧
      (∀ j, j < k → ((prov.getD j none).isSome ↔
        j < min k (totalValid k nshard Iin))) ∧
      (∀ j, j < k → ∀ s p, prov.getD j none = some (s, p) →
        s < nshard ∧ p < vc k Iin s ∧
        (merge_tables_row k nshard Din Iin trans).1.getD j 0 = din Din s p ∧
        (merge_tables_row k nshard Din Iin trans).2.getD j (-1)
          = iin Iin s p + trans.getD s 0) ∧
      (∀ j, j < k → prov.getD j none = none →
        (merge_tables_row k nshard Din Iin trans).2.getD j (-1) = -1 ∧
        (merge_tables_row k nshard Din Iin trans).1.getD j 0 = CMin_neutral) ∧
      (∀ s, s < nshard → ∃ c, c ≤ vc k Iin s ∧ provPos prov s = List.range c ∧
        (c < vc k Iin s → (din Din s c, s) ∈
          (mergeRun k Din Iin trans k (initState nshard Din Iin)).heap)) := by
  obtain ⟨prov, hinv⟩ := merge_row_inv k nshard Din Iin trans hk
  refine ⟨prov, hinv.outD_len, hinv.outI_len, hinv.prov_len, hinv.prov_min,
    ?_, ?_, ?_, ?_⟩
  · intro j hj
    have := hinv.prov_pref j hj
    rwa [hinv.prov_min] at this
  · intro j hj s p hsp
    have := hinv.prov_out j hj
    rw [hsp] at this
    exact this
  · intro j hj hnone
    have := hinv.prov_out j hj
    rw [hnone] at this
    exact this
  · intro s hs
    refine ⟨ptrF (mergeRun k Din Iin trans k (initState nshard Din Iin)) s,
      hinv.ptr_le s hs, hinv.prov_shard s, ?_⟩
    intro hlt
    have hmemspec : (din Din s
          (ptrF (mergeRun k Din Iin trans k (initState nshard Din Iin)) s), s)
        ∈ heapSpecM k nshard Din Iin
          (ptrF (mergeRun k Din Iin trans k (initState nshard Din Iin))) := by
      unfold heapSpecM
      refine Multiset.mem_map.mpr ⟨s, ?_, rfl⟩
      rw [Finset.mem_val, Finset.mem_filter, Finset.mem_range]
      exact ⟨hs, hlt⟩
    rw [← hinv.heap_ms] at hmemspec
    exact_mod_cast hmemspec

/-- The order facts of a finished row under sorted shard windows: the
consumed slots are emitted in non-decreasing distance order, and every
unconsumed candidate of every shard dominates every emitted distance. -/
theorem row_final_sorted (k nshard : ℕ) (Din : List (List ℚ))
    (Iin : List (List ℤ)) (trans : List ℤ) (hk : 0 < k)
    (hsort : SortedRows k nshard Din Iin) :
    ∃ prov : List (Option (ℕ × ℕ)),
      prov.length = k ∧
      countSome prov = min k (totalValid k nshard Iin) ∧
      (∀ j, j < k → ((prov.getD j none).isSome ↔
        j < min k (totalValid k nshard Iin))) ∧
      (∀ j, j < k → ∀ s p, prov.getD j none = some (s, p) →
        s < nshard ∧ p < vc k Iin s ∧
        (merge_tables_row k nshard Din Iin trans).1.getD j 0 = din Din s p ∧
        (merge_tables_row k nshard Din Iin trans).2.getD j (-1)
          = iin Iin s p + trans.getD s 0) ∧
      (∀ j, j < k → prov.getD j none = none →
        (merge_tables_row k nshard Din Iin trans).2.getD j (-1) = -1 ∧
        (merge_tables_row k nshard Din Iin trans).1.getD j 0 = CMin_neutral) ∧
      (∀ s, s < nshard → ∃ c, c ≤ vc k Iin s ∧ provPos prov s = List.range c ∧
        (∀ p, c ≤ p → p < vc k Iin s → ∀ j, j < min k (totalValid k nshard Iin) →
          (merge_tables_row k nshard Din Iin trans).1.getD j 0 ≤ din Din s p)) ∧
      (∀ j₁ j₂, j₁ ≤ j₂ → j₂ < min k (totalValid k nshard Iin) →
        (merge_tables_row k nshard Din Iin trans).1.getD j₁ 0
          ≤ (merge_tables_row k nshard Din Iin trans).1.getD j₂ 0) := by
  obtain ⟨prov, hinv⟩ := merge_row_inv k nshard Din Iin trans hk
  have hso : SortedInv nshard (mergeRun k Din Iin trans k (initState nshard Din Iin)) :=
    mergeRun_sorted k nshard Din Iin trans hsort k 0 (initState nshard Din Iin) []
      (initState_inv k nshard Din Iin trans hk) (initState_sorted nshard Din Iin)
  have hsump : sumPtr nshard (mergeRun k Din Iin trans k (initState nshard Din Iin))
      = min k (totalValid k nshard Iin) := by
    have h1 := hinv.prov_count
    have h2 := hinv.prov_min
    omega
  refine ⟨prov, hinv.prov_len, hinv.prov_min, ?_, ?_, ?_, ?_, ?_⟩
  · intro j hj
    have := hinv.prov_pref j hj
    rwa [hinv.prov_min] at this
  · intro j hj s p hsp
    have := hinv.prov_out j hj
    rw [hsp] at this
    exact this
  · intro j hj hnone
    have := hinv.prov_out j hj
    rw [hnone] at this
    exact this
  · intro s hs
    refine ⟨ptrF (mergeRun k Din Iin trans k (initState nshard Din Iin)) s,
      hinv.ptr_le s hs, hinv.prov_shard s, ?_⟩
    intro p hcp hp j hj
    have hclt : ptrF (mergeRun k Din Iin trans k (initState nshard Din Iin)) s
        < vc k Iin s := by omega
    have hmemspec : (din Din s
          (ptrF (mergeRun k Din Iin trans k (initState nshard Din Iin)) s), s)
        ∈ heapSpecM k nshard Din Iin
          (ptrF (mergeRun k Din Iin trans k (initState nshard Din Iin))) := by
      unfold heapSpecM
      refine Multiset.mem_map.mpr ⟨s, ?_, rfl⟩
      rw [Finset.mem_val, Finset.mem_filter, Finset.mem_range]
      exact ⟨hs, hclt⟩
    rw [← hinv.heap_ms] at hmemspec
    have hmem : (din Din s
          (ptrF (mergeRun k Din Iin trans k (initState nshard Din Iin)) s), s)
        ∈ (mergeRun k Din Iin trans k (initState nshard Din Iin)).heap := by
      exact_mod_cast hmemspec
    have hdom := hso.2 j (by rw [hsump]; exact hj) _ hmem
    refine le_trans hdom ?_
    exact hsort s hs p hp _ hcp
  · intro j₁ j₂ h12 hj2
    exact hso.1 j₁ j₂ h12 (by rw [hsump]; exact hj2)

/-! ## Output depends only on the consumable windows -/

theorem cond_iff_vc (f : ℕ → ℤ) (k p : ℕ) (hp : p < validCount f k) :
    (p + 1 < k ∧ 0 ≤ f (p + 1)) ↔ p + 1 < validCount f k := by
  constructor
  · intro h
    exact validCount_succ_lt f k p hp h.1 h.2
  · intro h
    exact ⟨lt_of_lt_of_le h (validCount_le f k), validCount_valid f k (p + 1) h⟩

/-- Definition of window agreement between two stacked input pairs: equal
consumable window sizes and equal distances/labels inside the windows. -/
def WindowsAgree (k nshard : ℕ) (Din Din' : List (List ℚ))
    (Iin Iin' : List (List ℤ)) : Prop :=
  ∀ s, s < nshard → vc k Iin s = vc k Iin' s ∧
    ∀ p, p < vc k Iin s → din Din s p = din Din' s p ∧ iin Iin s p = iin Iin' s p

theorem windows_agree_step (k nshard : ℕ) (Din Din' : List (List ℚ))
    (Iin Iin' : List (List ℤ)) (trans : List ℤ)
    (hagree : WindowsAgree k nshard Din Din' Iin Iin')
    (j : ℕ) (st : RowState) (prov : List (Option (ℕ × ℕ)))
    (hinv : RowInv k nshard Din Iin trans j st prov) :
    mergeStep k Din Iin trans st = mergeStep k Din' Iin' trans st := by
  by_cases hemp : st.heap.length = 0
  · unfold mergeStep
    rw [if_pos hemp, if_pos hemp]
  · obtain ⟨hs, hact, hdin⟩ := top_facts k nshard Din Iin trans j st prov hinv hemp
    have hpp : topPtr st = ptrF st (topShard st) := rfl
    have hvceq := (hagree (topShard st) hs).1
    have hwin := (hagree (topShard st) hs).2
    have hact2 : ptrF st (topShard st) < vc k Iin' (topShard st) := by
      rw [← hvceq]; exact hact
    have hcond : (topPtr st + 1 < k ∧ 0 ≤ iin Iin (topShard st) (topPtr st + 1))
        ↔ (topPtr st + 1 < k ∧ 0 ≤ iin Iin' (topShard st) (topPtr st + 1)) := by
      rw [hpp]
      have h1 := cond_iff_vc (fun p => iin Iin (topShard st) p) k
        (ptrF st (topShard st)) hact
      have h2 := cond_iff_vc (fun p => iin Iin' (topShard st) p) k
        (ptrF st (topShard st)) hact2
      have h3 : ptrF st (topShard st) + 1 < vc k Iin (topShard st)
          ↔ ptrF st (topShard st) + 1 < vc k Iin' (topShard st) := by
        rw [hvceq]
      exact h1.trans (h3.trans h2.symm)
    have hiin : iin Iin (topShard st) (topPtr st) = iin Iin' (topShard st) (topPtr st) :=
      (hwin (ptrF st (topShard st)) hact).2
    by_cases hc : topPtr st + 1 < k ∧ 0 ≤ iin Iin (topShard st) (topPtr st + 1)
    · have hc' := hcond.mp hc
      have hvc1 : ptrF st (topShard st) + 1 < vc k Iin (topShard st) :=
        validCount_succ_lt (fun p => iin Iin (topShard st) p) k
          (ptrF st (topShard st)) hact hc.1 hc.2
      have hdin1 : din Din (topShard st) (topPtr st + 1)
          = din Din' (topShard st) (topPtr st + 1) :=
        (hwin (ptrF st (topShard st) + 1) hvc1).1
      unfold mergeStep
      rw [if_neg hemp, if_neg hemp, if_pos hc, if_pos hc', hdin1, hiin]
    · have hc' : ¬ (topPtr st + 1 < k ∧ 0 ≤ iin Iin' (topShard st) (topPtr st + 1)) :=
        fun h => hc (hcond.mpr h)
      unfold mergeStep
      rw [if_neg hemp, if_neg hemp, if_neg hc, if_neg hc', hiin]

theorem seedHeap_agree (k nshard : ℕ) (Din Din' : List (List ℚ))
    (Iin Iin' : List (List ℤ)) (hk : 0 < k)
    (hagree : WindowsAgree k nshard Din Din' Iin Iin') :
    ∀ t, t ≤ nshard → seedHeap Din Iin t = seedHeap Din' Iin' t := by
  intro t
  induction t with
  | zero => intro _; rfl
  | succ n ih =>
    intro hn
    rw [seedHeap_succ, seedHeap_succ, ih (by omega)]
    have hvceq := (hagree n (by omega)).1
    have hwin := (hagree n (by omega)).2
    have htest : (0 ≤ iin Iin n 0) ↔ (0 ≤ iin Iin' n 0) := by
      have h1 := validCount_pos (fun p => iin Iin n p) k hk
      have h2 := validCount_pos (fun p => iin Iin' n p) k hk
      have h3 : 0 < vc k Iin n ↔ 0 < vc k Iin' n := by rw [hvceq]
      exact h1.symm.trans (h3.trans h2)
    by_cases h0 : 0 ≤ iin Iin n 0
    · have h0' := htest.mp h0
      rw [if_pos h0, if_pos h0']
      have hvc0 : 0 < vc k Iin n := (validCount_pos (fun p => iin Iin n p) k hk).mpr h0
      rw [(hwin 0 hvc0).1]
    · have h0' : ¬ 0 ≤ iin Iin' n 0 := fun h => h0 (htest.mpr h)
      rw [if_neg h0, if_neg h0']

theorem mergeRun_agree (k nshard : ℕ) (Din Din' : List (List ℚ))
    (Iin Iin' : List (List ℤ)) (trans : List ℤ)
    (hagree : WindowsAgree k nshard Din Din' Iin Iin') :
    ∀ (m j : ℕ) (st : RowState) (prov : List (Option (ℕ × ℕ))),
      RowInv k nshard Din Iin trans j st prov →
      mergeRun k Din Iin trans m st = mergeRun k Din' Iin' trans m st := by
  intro m
  induction m with
  | zero => intro _ _ _ _; rfl
  | succ n ih =>
    intro j st prov hinv
    obtain ⟨prov1, h1⟩ := mergeStep_inv k nshard Din Iin trans j st prov hinv
    show mergeRun k Din Iin trans n (mergeStep k Din Iin trans st)
      = mergeRun k Din' Iin' trans n (mergeStep k Din' Iin' trans st)
    rw [← windows_agree_step k nshard Din Din' Iin Iin' trans hagree j st prov hinv]
    exact ih (j + 1) (mergeStep k Din Iin trans st) prov1 h1

theorem merge_tables_row_agree (k nshard : ℕ) (Din Din' : List (List ℚ))
    (Iin Iin' : List (List ℤ)) (trans : List ℤ)
    (hagree : WindowsAgree k nshard Din Din' Iin Iin') :
    merge_tables_row k nshard Din Iin trans
      = merge_tables_row k nshard Din' Iin' trans := by
  rcases Nat.eq_zero_or_pos k with hk0 | hk
  · rw [hk0]
    rfl
  · have hinit : initState nshard Din Iin = initState nshard Din' Iin' := by
      unfold initState
      rw [seedHeap_agree k nshard Din Din' Iin Iin' hk hagree nshard (le_refl _)]
    have hrun : mergeRun k Din Iin trans k (initState nshard Din Iin)
        = mergeRun k Din' Iin' trans k (initState nshard Din Iin) :=
      mergeRun_agree k nshard Din Din' Iin Iin' trans hagree k 0
        (initState nshard Din Iin) [] (initState_inv k nshard Din Iin trans hk)
    unfold merge_tables_row
    rw [hrun, hinit]

/-! ## The translation-derivation loop of brute_force_knn -/

theorem getD_map_range {α : Type} (d : α) (f : ℕ → α) (n i : ℕ) (h : i < n) :
    ((List.range n).map f).getD i d = f i := by
  rw [List.getD_eq_getElem?_getD, List.getElem?_eq_getElem (by simp [h])]
  simp

theorem derive_loop_char (n_params : ℕ) (sizes : List ℤ) :
    ∀ t, t ≤ n_params →
      (List.range t).foldl
        (fun st i => (if i < n_params then st.1 ++ [st.2] else st.1,
          st.2 + sizes.getD i 0)) ([], 0)
      = ((List.range t).map fun i => ∑ jj ∈ Finset.range i, sizes.getD jj 0,
         ∑ jj ∈ Finset.range t, sizes.getD jj 0) := by
  intro t
  induction t with
  | zero => intro _; simp
  | succ n ih =>
    intro hn
    rw [List.range_succ, List.foldl_append, ih (by omega)]
    simp only [List.foldl_cons, List.foldl_nil]
    rw [if_pos (by omega : n < n_params), List.map_append, Finset.sum_range_succ]
    rfl

theorem derive_id_ranges_char (n_params : ℕ) (sizes : List ℤ) :
    derive_id_ranges n_params sizes
      = (List.range n_params).map fun i => ∑ jj ∈ Finset.range i, sizes.getD jj 0 := by
  unfold derive_id_ranges
  rw [derive_loop_char n_params sizes n_params (le_refl _)]

/-! ## Rows of merge_tables -/

/-- Each query row of `merge_tables` (for `k != 0`) is `merge_tables_row`
on that row's slice of the stacked inputs. -/
theorem merge_tables_getD_row (n k nshard : ℕ) (allD : List (List (List ℚ)))
    (allI : List (List (List ℤ))) (trans : List ℤ) (hk : ¬ k = 0) (i : ℕ)
    (hi : i < n) :
    (merge_tables n k nshard allD allI trans).getD i ([], [])
      = merge_tables_row k nshard (allD.map fun sh => sh.getD i [])
          (allI.map fun sh => sh.getD i []) trans := by
  unfold merge_tables
  rw [if_neg hk]
  exact getD_map_range ([], []) _ n i hi

/-! ## The claims -/

/-- C1 (counterexample): the output of `merge_tables` does not break
distance ties by lower shard index.  With shard 0 = [(0,5),(2,6),(9,7)]
and shard 1 = [(2,8),(3,9),(9,10)], translations [0,50], the two
candidates at distance 2 are emitted as shard 1 first (label 58) and
shard 0 second (label 6), while the claim mandates [5, 6, 58]. -/
theorem C1_counterexample :
    (merge_tables_row 3 2 [[0, 2, 9], [2, 3, 9]] [[5, 6, 7], [8, 9, 10]]
        [0, 50]).2 = [5, 58, 6] ∧
    (merge_tables_row 3 2 [[0, 2, 9], [2, 3, 9]] [[5, 6, 7], [8, 9, 10]]
        [0, 50]).2 ≠ [5, 6, 58] := by
  decide

/-- C1 (amended): for every query row with sorted shard windows, the
valid entries of the output are exactly the `min k m` smallest candidates
of the union of all shards' windows, emitted in non-decreasing distance
order with each slot carrying a genuine candidate's distance and
translated label, the consumed candidates of each shard forming a prefix
of its window and every unconsumed candidate dominating every emitted
distance; the remaining slots are `(-1, neutral)`.  Equal distances are
emitted in the deterministic heap order, which is not always lower shard
index first. -/
theorem C1_amended (k nshard : ℕ) (Din : List (List ℚ)) (Iin : List (List ℤ))
    (trans : List ℤ) (hk : 0 < k) (hsort : SortedRows k nshard Din Iin) :
    ∃ prov : List (Option (ℕ × ℕ)),
      prov.length = k ∧
      countSome prov = min k (totalValid k nshard Iin) ∧
      (∀ j, j < k → ((prov.getD j none).isSome ↔
        j < min k (totalValid k nshard Iin))) ∧
      (∀ j, j < k → ∀ s p, prov.getD j none = some (s, p) →
        s < nshard ∧ p < vc k Iin s ∧
        (merge_tables_row k nshard Din Iin trans).1.getD j 0 = din Din s p ∧
        (merge_tables_row k nshard Din Iin trans).2.getD j (-1)
          = iin Iin s p + trans.getD s 0) ∧
      (∀ j, j < k → prov.getD j none = none →
        (merge_tables_row k nshard Din Iin trans).2.getD j (-1) = -1 ∧
        (merge_tables_row k nshard Din Iin trans).1.getD j 0 = CMin_neutral) ∧
      (∀ s, s < nshard → ∃ c, c ≤ vc k Iin s ∧ provPos prov s = List.range c ∧
        (∀ p, c ≤ p → p < vc k Iin s → ∀ j, j < min k (totalValid k nshard Iin) →
          (merge_tables_row k nshard Din Iin trans).1.getD j 0 ≤ din Din s p)) ∧
      (∀ j₁ j₂, j₁ ≤ j₂ → j₂ < min k (totalValid k nshard Iin) →
        (merge_tables_row k nshard Din Iin trans).1.getD j₁ 0
          ≤ (merge_tables_row k nshard Din Iin trans).1.getD j₂ 0) :=
  row_final_sorted k nshard Din Iin trans hk hsort

/-- C1 (witness): the amended claim applied to one shard with window
[(1,0)] and a padded second slot. -/
theorem C1_amended_witness :
    ∃ prov : List (Option (ℕ × ℕ)),
      prov.length = 2 ∧
      countSome prov = min 2 (totalValid 2 1 [[0, -1]]) ∧
      (∀ j, j < 2 → ((prov.getD j none).isSome ↔
        j < min 2 (totalValid 2 1 [[0, -1]]))) ∧
      (∀ j, j < 2 → ∀ s p, prov.getD j none = some (s, p) →
        s < 1 ∧ p < vc 2 [[0, -1]] s ∧
        (merge_tables_row 2 1 [[1, 3]] [[0, -1]] [5]).1.getD j 0 = din [[1, 3]] s p ∧
        (merge_tables_row 2 1 [[1, 3]] [[0, -1]] [5]).2.getD j (-1)
          = iin [[0, -1]] s p + ([5] : List ℤ).getD s 0) ∧
      (∀ j, j < 2 → prov.getD j none = none →
        (merge_tables_row 2 1 [[1, 3]] [[0, -1]] [5]).2.getD j (-1) = -1 ∧
        (merge_tables_row 2 1 [[1, 3]] [[0, -1]] [5]).1.getD j 0 = CMin_neutral) ∧
      (∀ s, s < 1 → ∃ c, c ≤ vc 2 [[0, -1]] s ∧ provPos prov s = List.range c ∧
        (∀ p, c ≤ p → p < vc 2 [[0, -1]] s → ∀ j, j < min 2 (totalValid 2 1 [[0, -1]]) →
          (merge_tables_row 2 1 [[1, 3]] [[0, -1]] [5]).1.getD j 0 ≤ din [[1, 3]] s p)) ∧
      (∀ j₁ j₂, j₁ ≤ j₂ → j₂ < min 2 (totalValid 2 1 [[0, -1]]) →
        (merge_tables_row 2 1 [[1, 3]] [[0, -1]] [5]).1.getD j₁ 0
          ≤ (merge_tables_row 2 1 [[1, 3]] [[0, -1]] [5]).1.getD j₂ 0) :=
  C1_amended 2 1 [[1, 3]] [[0, -1]] [5] (by decide)
    (by
      show ∀ s, s < 1 → ∀ q, q < vc 2 [[0, -1]] s → ∀ p, p ≤ q →
        din [[1, 3]] s p ≤ din [[1, 3]] s q
      decide)

/-- C2 (code_bug): in `brute_force_knn`, the square-root `unaryOp` for
`EucUnexpandedL2Sqrt` is applied to `res_D` *before* `updateDevice`
copies the merged `result_D` over `res_D`, so the returned buffers are
always the untransformed merged results; the claim that the returned
distances are the element-wise square roots fails on any nonzero
distance (e.g. merged 4 is returned as 4, not 2). -/
theorem C2_sqrt_no_effect :
    (∀ (metric : MetricType) (sqrtF : ℚ → ℚ) (bufs : DeviceBuffers)
      (result_D : List ℚ) (result_I : List ℤ),
      (knn_finish metric sqrtF bufs result_D result_I).res_D = result_D ∧
      (knn_finish metric sqrtF bufs result_D result_I).res_I = result_I) ∧
    (knn_finish MetricType.EucUnexpandedL2Sqrt (fun _ => 2)
      { res_D := [9], res_I := [3] } [4] [7]).res_D = [4] ∧
    ([4] : List ℚ) ≠ [2] := by
  refine ⟨fun metric sqrtF bufs rD rI => ⟨rfl, rfl⟩, rfl, by decide⟩

/-- C3 (code_bug): a failed shard's slice of the uninitialized stacked
buffers is not treated as `-1`: with shard 1 failing to resolve and its
stale slice holding (distance 0, label 7), the merge consumes the stale
candidate and the call returns global label 10 = 7 + translation 3 as the
best neighbor, instead of shard 0's genuine candidate. -/
theorem C3_failed_shard_leaks :
    brute_force_knn MetricType.EucUnexpandedL2 2 [3, 3] 1 1
      [⟨true, false, [[2]], [[0]]⟩, ⟨false, false, [], []⟩]
      [[], [[0]]] [[], [[7]]] none
      = Except.ok [([0], [10])] ∧ (10 : ℤ) ≠ -1 ∧ (10 : ℤ) ≠ 2 + 0 :=
  ⟨rfl, by decide, by decide⟩

/-- C4 (counterexample): output distances are not non-decreasing through
trailing sentinel slots: with one shard whose window is [(1, 0)] and
k = 2, the output distances are [1, neutral] with neutral = -FLT_MAX
below 1. -/
theorem C4_counterexample :
    (merge_tables_row 2 1 [[1, 5]] [[0, -1]] [0]).1 = [1, CMin_neutral] ∧
    ¬ ((merge_tables_row 2 1 [[1, 5]] [[0, -1]] [0]).1.getD 0 0
        ≤ (merge_tables_row 2 1 [[1, 5]] [[0, -1]] [0]).1.getD 1 0) := by
  decide

/-- C4 (amended): for every query row with sorted shard windows, the
distances of the consumed slots `0 .. min k m - 1` are monotonically
non-decreasing; the trailing sentinel slots hold `CMin::neutral()`
(-FLT_MAX), which lies *below* the valid distances rather than above. -/
theorem C4_amended (k nshard : ℕ) (Din : List (List ℚ)) (Iin : List (List ℤ))
    (trans : List ℤ) (hk : 0 < k) (hsort : SortedRows k nshard Din Iin) :
    (∀ j₁ j₂, j₁ ≤ j₂ → j₂ < min k (totalValid k nshard Iin) →
      (merge_tables_row k nshard Din Iin trans).1.getD j₁ 0
        ≤ (merge_tables_row k nshard Din Iin trans).1.getD j₂ 0) ∧
    (∀ j, min k (totalValid k nshard Iin) ≤ j → j < k →
      (merge_tables_row k nshard Din Iin trans).1.getD j 0 = CMin_neutral ∧
      (merge_tables_row k nshard Din Iin trans).2.getD j (-1) = -1) := by
  obtain ⟨prov, h1, h2, h3, h4, h5, h6, h7⟩ :=
    row_final_sorted k nshard Din Iin trans hk hsort
  refine ⟨h7, ?_⟩
  intro j hjge hjk
  have hnone : prov.getD j none = none := by
    rcases hopt : prov.getD j none with _ | x
    · rfl
    · exfalso
      have hiff := h3 j hjk
      have : j < min k (totalValid k nshard Iin) := hiff.mp (by rw [hopt]; rfl)
      omega
  have := h5 j hjk hnone
  exact ⟨this.2, this.1⟩

/-- C4 (witness): the amended claim applied to one shard with window
[(1,0)], k = 2: slot 0 region is sorted and slot 1 is the sentinel. -/
theorem C4_amended_witness :
    (∀ j₁ j₂, j₁ ≤ j₂ → j₂ < min 2 (totalValid 2 1 [[0, -1]]) →
      (merge_tables_row 2 1 [[1, 5]] [[0, -1]] [0]).1.getD j₁ 0
        ≤ (merge_tables_row 2 1 [[1, 5]] [[0, -1]] [0]).1.getD j₂ 0) ∧
    (∀ j, min 2 (totalValid 2 1 [[0, -1]]) ≤ j → j < 2 →
      (merge_tables_row 2 1 [[1, 5]] [[0, -1]] [0]).1.getD j 0 = CMin_neutral ∧
      (merge_tables_row 2 1 [[1, 5]] [[0, -1]] [0]).2.getD j (-1) = -1) :=
  C4_amended 2 1 [[1, 5]] [[0, -1]] [0] (by decide)
    (by
      show ∀ s, s < 1 → ∀ q, q < vc 2 [[0, -1]] s → ∀ p, p ≤ q →
        din [[1, 5]] s p ≤ din [[1, 5]] s q
      decide)

/-- C5 (counterexample): a supplied `translations` whose length differs
from `n_params` is not rejected: the call proceeds and returns a result
(no length validation exists in the source). -/
theorem C5_counterexample :
    ([5] : List ℤ).length ≠ 2 ∧
    exceptIsOk (brute_force_knn MetricType.EucUnexpandedL2 2 [1, 1] 1 1
      [⟨true, false, [[1]], [[0]]⟩, ⟨true, false, [[2]], [[0]]⟩] [] []
      (some [5])) = true := by
  exact ⟨by decide, rfl⟩

/-- C5 (amended): an unsupported metric is rejected up front — the call
returns the configuration error before any shard work, producing no
partial results; the length of a supplied `translations` array is,
however, never validated against `n_params`. -/
theorem C5_amended (n_params : ℕ) (sizes : List ℤ) (n k : ℕ)
    (shards : List ShardBackend) (initD : List (List (List ℚ)))
    (initI : List (List (List ℤ))) (translations : Option (List ℤ)) :
    brute_force_knn MetricType.UnsupportedMetric n_params sizes n k shards
        initD initI translations
      = Except.error
          "Only EucUnexpandedL2Sqrt and EucUnexpandedL2 metrics are supported currently." := by
  unfold brute_force_knn
  rw [if_neg (by decide)]

/-- C6 (counterexample): merge output order at exact distance ties is not
lower-shard-first: with shard 0 = [(0,10),(1,11),(3,12)] and shard 1 =
[(1,20),(2,21),(3,22)], translations [0,100], the tied candidates at
distance 1 are emitted as shard 1's label 120 before shard 0's label 11. -/
theorem C6_counterexample :
    (merge_tables_row 3 2 [[0, 1, 3], [1, 2, 3]] [[10, 11, 12], [20, 21, 22]]
        [0, 100]).1 = [0, 1, 1] ∧
    (merge_tables_row 3 2 [[0, 1, 3], [1, 2, 3]] [[10, 11, 12], [20, 21, 22]]
        [0, 100]).2 = [10, 120, 11] ∧
    (merge_tables_row 3 2 [[0, 1, 3], [1, 2, 3]] [[10, 11, 12], [20, 21, 22]]
        [0, 100]).2 ≠ [10, 11, 120] := by
  decide

/-- C6 (amended): `merge_tables` is a pure function of its inputs (two
runs on equal inputs are identical), every emitted slot carries a genuine
candidate of its recorded shard, and the candidates drawn from any single
shard are consumed in the order of its local list (positions 0, 1, 2, ...);
at exact cross-shard ties, however, the deterministic emission order is the
binary-heap order, which can place a higher shard index first. -/
theorem C6_amended (k nshard : ℕ) (Din : List (List ℚ)) (Iin : List (List ℤ))
    (trans : List ℤ) (hk : 0 < k) :
    merge_tables_row k nshard Din Iin trans
      = merge_tables_row k nshard Din Iin trans ∧
    ∃ prov : List (Option (ℕ × ℕ)),
      prov.length = k ∧
      (∀ j, j < k → ∀ s p, prov.getD j none = some (s, p) →
        (merge_tables_row k nshard Din Iin trans).1.getD j 0 = din Din s p ∧
        (merge_tables_row k nshard Din Iin trans).2.getD j (-1)
          = iin Iin s p + trans.getD s 0) ∧
      (∀ s, s < nshard → ∃ c, provPos prov s = List.range c) := by
  refine ⟨rfl, ?_⟩
  obtain ⟨prov, h1, h2, h3, h4, h5, h6, h7, h8⟩ := row_final k nshard Din Iin trans hk
  refine ⟨prov, h3, ?_, ?_⟩
  · intro j hj s p hsp
    obtain ⟨_, _, hD, hI⟩ := h6 j hj s p hsp
    exact ⟨hD, hI⟩
  · intro s hs
    obtain ⟨c, _, hpos, _⟩ := h8 s hs
    exact ⟨c, hpos⟩

/-- C6 (witness): the amended claim applied to a single shard. -/
theorem C6_amended_witness :
    merge_tables_row 1 1 [[2]] [[0]] [0] = merge_tables_row 1 1 [[2]] [[0]] [0] ∧
    ∃ prov : List (Option (ℕ × ℕ)),
      prov.length = 1 ∧
      (∀ j, j < 1 → ∀ s p, prov.getD j none = some (s, p) →
        (merge_tables_row 1 1 [[2]] [[0]] [0]).1.getD j 0 = din [[2]] s p ∧
        (merge_tables_row 1 1 [[2]] [[0]] [0]).2.getD j (-1)
          = iin [[0]] s p + ([0] : List ℤ).getD s 0) ∧
      (∀ s, s < 1 → ∃ c, provPos prov s = List.range c) :=
  C6_amended 1 1 [[2]] [[0]] [0] (by decide)

/-- C7: every non-sentinel output label of a merge row equals
`local_index + translation[s]` for the shard `s` that produced the slot,
and the distance in the same slot is the distance paired with that same
candidate in shard `s`'s input row (at a position within the first `k`,
with a non-negative input label). -/
theorem C7_translation (k nshard : ℕ) (Din : List (List ℚ)) (Iin : List (List ℤ))
    (trans : List ℤ) (hk : 0 < k) (j : ℕ) (hj : j < k)
    (hvalid : (merge_tables_row k nshard Din Iin trans).2.getD j (-1) ≠ -1) :
    ∃ s p, s < nshard ∧ p < k ∧ 0 ≤ iin Iin s p ∧
      (merge_tables_row k nshard Din Iin trans).2.getD j (-1)
        = iin Iin s p + trans.getD s 0 ∧
      (merge_tables_row k nshard Din Iin trans).1.getD j 0 = din Din s p := by
  obtain ⟨prov, h1, h2, h3, h4, h5, h6, h7, h8⟩ := row_final k nshard Din Iin trans hk
  rcases hopt : prov.getD j none with _ | ⟨s, p⟩
  · exact absurd (h7 j hj hopt).1 hvalid
  · obtain ⟨hs, hp, hD, hI⟩ := h6 j hj s p hopt
    exact ⟨s, p, hs, lt_of_lt_of_le hp (validCount_le _ k),
      validCount_valid (fun q => iin Iin s q) k p hp, hI, hD⟩

/-- C7 (witness): applied to a one-shard row with candidate (4, 2) and
translation 10: the returned label 12 = 2 + 10 and distance 4. -/
theorem C7_translation_witness :
    ∃ s p, s < 1 ∧ p < 1 ∧ 0 ≤ iin [[2]] s p ∧
      (merge_tables_row 1 1 [[4]] [[2]] [10]).2.getD 0 (-1)
        = iin [[2]] s p + ([10] : List ℤ).getD s 0 ∧
      (merge_tables_row 1 1 [[4]] [[2]] [10]).1.getD 0 0 = din [[4]] s p :=
  C7_translation 1 1 [[4]] [[2]] [10] (by decide) 0 (by decide) (by decide)

/-- C8: if the total number of consumable candidates `m` across all
shards is below `k`, the first `m` output slots hold valid (non -1)
labels (given non-negative translations) and the `k - m` trailing slots
hold exactly `(-1, neutral)`; the merge is total and never fails. -/
theorem C8_sentinels (k nshard : ℕ) (Din : List (List ℚ)) (Iin : List (List ℤ))
    (trans : List ℤ) (hk : 0 < k)
    (hm : totalValid k nshard Iin < k)
    (htr : ∀ s, s < nshard → 0 ≤ trans.getD s 0) :
    (merge_tables_row k nshard Din Iin trans).1.length = k ∧
    (merge_tables_row k nshard Din Iin trans).2.length = k ∧
    (∀ j, j < totalValid k nshard Iin →
      0 ≤ (merge_tables_row k nshard Din Iin trans).2.getD j (-1)) ∧
    (∀ j, totalValid k nshard Iin ≤ j → j < k →
      (merge_tables_row k nshard Din Iin trans).2.getD j (-1) = -1 ∧
      (merge_tables_row k nshard Din Iin trans).1.getD j 0 = CMin_neutral) := by
  obtain ⟨prov, h1, h2, h3, h4, h5, h6, h7, h8⟩ := row_final k nshard Din Iin trans hk
  have hminm : min k (totalValid k nshard Iin) = totalValid k nshard Iin := by omega
  refine ⟨h1, h2, ?_, ?_⟩
  · intro j hj
    have hjk : j < k := by omega
    have hiff := h5 j hjk
    rw [hminm] at hiff
    rcases hopt : prov.getD j none with _ | ⟨s, p⟩
    · exfalso
      have hisome := hiff.mpr hj
      rw [hopt] at hisome
      simp at hisome
    · obtain ⟨hs, hp, hD, hI⟩ := h6 j hjk s p hopt
      rw [hI]
      exact add_nonneg (validCount_valid (fun q => iin Iin s q) k p hp) (htr s hs)
  · intro j hjm hjk
    have hiff := h5 j hjk
    rw [hminm] at hiff
    have hnone : prov.getD j none = none := by
      rcases hopt : prov.getD j none with _ | x
      · rfl
      · exfalso
        have : j < totalValid k nshard Iin := hiff.mp (by rw [hopt]; rfl)
        omega
    exact h7 j hjk hnone

/-- C8 (witness): one shard with a single valid candidate, k = 2: slot 0
is valid, slot 1 is (-1, neutral). -/
theorem C8_sentinels_witness :
    (merge_tables_row 2 1 [[3, 9]] [[0, -1]] [0]).1.length = 2 ∧
    (merge_tables_row 2 1 [[3, 9]] [[0, -1]] [0]).2.length = 2 ∧
    (∀ j, j < totalValid 2 1 [[0, -1]] →
      0 ≤ (merge_tables_row 2 1 [[3, 9]] [[0, -1]] [0]).2.getD j (-1)) ∧
    (∀ j, totalValid 2 1 [[0, -1]] ≤ j → j < 2 →
      (merge_tables_row 2 1 [[3, 9]] [[0, -1]] [0]).2.getD j (-1) = -1 ∧
      (merge_tables_row 2 1 [[3, 9]] [[0, -1]] [0]).1.getD j 0 = CMin_neutral) :=
  C8_sentinels 2 1 [[3, 9]] [[0, -1]] [0] (by decide) (by decide)
    (by decide)

/-- C9: with `translations == nullptr`, `brute_force_knn` derives the
translation table as the exclusive prefix sum of the shard sizes:
entry `i` is `sizes[0] + ... + sizes[i-1]`, and the table has exactly
`n_params` entries. -/
theorem C9_prefix_sum (n_params : ℕ) (sizes : List ℤ) :
    (derive_id_ranges n_params sizes).length = n_params ∧
    ∀ i, i < n_params → (derive_id_ranges n_params sizes).getD i 0
      = ∑ jj ∈ Finset.range i, sizes.getD jj 0 := by
  rw [derive_id_ranges_char]
  constructor
  · simp
  · intro i hi
    exact getD_map_range 0 _ n_params i hi

/-- C9 (witness): sizes [4, 5, 6] give translations [0, 4, 9]. -/
theorem C9_prefix_sum_witness :
    (derive_id_ranges 3 [4, 5, 6]).length = 3 ∧
    (derive_id_ranges 3 [4, 5, 6]).getD 2 0 = 9 := by
  have h := C9_prefix_sum 3 [4, 5, 6]
  refine ⟨h.1, ?_⟩
  rw [h.2 2 (by decide)]
  decide

/-- C10: a merge row reads at most the first `k` entries of each shard's
row and consumes only the prefix ending at the first `-1` label: any two
inputs whose consumable windows agree (same window length, same distances
and labels inside the window) produce identical output, regardless of
entries beyond position `k` or after the first `-1`. -/
theorem C10_window_only (k nshard : ℕ) (Din Din' : List (List ℚ))
    (Iin Iin' : List (List ℤ)) (trans : List ℤ)
    (hagree : WindowsAgree k nshard Din Din' Iin Iin') :
    merge_tables_row k nshard Din Iin trans
      = merge_tables_row k nshard Din' Iin' trans :=
  merge_tables_row_agree k nshard Din Din' Iin Iin' trans hagree

/-- C10 (witness): two stacked inputs that differ only after shard 0's
first `-1` label and beyond position k = 2 of shard 1 produce identical
merge rows. -/
theorem C10_window_only_witness :
    merge_tables_row 2 2 [[1, 7, 3], [2, 3, 42]] [[0, -1, 5], [0, 1, 8]] [0, 5]
      = merge_tables_row 2 2 [[1, 7, 99], [2, 3, 0]] [[0, -1, -9], [0, 1, -3]]
          [0, 5] :=
  C10_window_only 2 2 [[1, 7, 3], [2, 3, 42]] [[1, 7, 99], [2, 3, 0]]
    [[0, -1, 5], [0, 1, 8]] [[0, -1, -9], [0, 1, -3]] [0, 5]
    (by
      show ∀ s, s < 2 → vc 2 [[0, -1, 5], [0, 1, 8]] s
          = vc 2 [[0, -1, -9], [0, 1, -3]] s ∧
        ∀ p, p < vc 2 [[0, -1, 5], [0, 1, 8]] s →
          din [[1, 7, 3], [2, 3, 42]] s p = din [[1, 7, 99], [2, 3, 0]] s p ∧
          iin [[0, -1, 5], [0, 1, 8]] s p = iin [[0, -1, -9], [0, 1, -3]] s p
      decide)

end KnnMerge
